import Mathlib

/-!
Shallow embedding of `src/deque.h`: a block-based deque built from
`Block<BlockSize>` (a fixed-capacity buffer with an occupied window
`[head_, tail_]`), `CircularBuffer<BlockSize>` (a ring of block-owning
slots), and the public `Deque` facade.

Modelling conventions:
* `size_t` values are `Nat`; every `+= 1` / `-= 1` on a `size_t` field is
  performed modulo `W = 2^64` (`wInc` / `wDec`), matching unsigned
  wraparound, which the source actually exercises (e.g. `tail_ -= 1` at 0).
* The element array of a block and the slot array of the ring are total
  functions; every concrete array access the source performs is bounds
  checked, and an out-of-bounds access or a dereference of an empty
  (null `unique_ptr`) slot makes the modelled operation return `none`,
  marking undefined behaviour of the original.
* Uninitialised `int` storage is modelled as 0; the source never reads a
  cell it has not written except through such undefined-behaviour paths.
* `physLen` records the allocated length of the ring's slot array, which
  can differ from `max_size_` after `Clear` (the source resets
  `max_size_` without reallocating).
-/

/-- Wraparound modulus of `size_t` (64-bit). -/
def W : Nat := 2 ^ 64

/-- `x += 1` on a `size_t`. -/
def wInc (x : Nat) : Nat := (x + 1) % W

/-- `x -= 1` on a `size_t` (wraps to `2^64 - 1` at 0). -/
def wDec (x : Nat) : Nat := (x + (W - 1)) % W

/-- `deque_settings::kBlockSize = 512 / sizeof(int)`. -/
def kBlockSize : Nat := 512 / 4

/-- `deque_settings::kBufferInitMaxSize = 1 << 4`. -/
def kBufferInitMaxSize : Nat := 2 ^ 4

/-- State of `Block<BlockSize>`: element array, `size_`, `head_`, `tail_`. -/
structure BlockState where
  data : Nat → Int
  size : Nat
  head : Nat
  tail : Nat

/-- Point update of an element array. -/
def writeData (d : Nat → Int) (i : Nat) (v : Int) : Nat → Int :=
  fun j => if j = i then v else d j

/-- Bounds-checked array write `data_[i] = v` into a `BS`-element array. -/
def writeAt (BS : Nat) (d : Nat → Int) (i : Nat) (v : Int) : Option (Nat → Int) :=
  if i < BS then some (writeData d i v) else none

/-- Bounds-checked array read `data_[i]` from a `BS`-element array. -/
def readAt (BS : Nat) (d : Nat → Int) (i : Nat) : Option Int :=
  if i < BS then some (d i) else none

namespace BlockState

/-- `Block() = default`: `size_ = head_ = tail_ = 0`, storage indeterminate
(modelled as zeros). -/
def mkDefault : BlockState := ⟨fun _ => 0, 0, 0, 0⟩

/-- `Block(size, filler)`: `size_ = n`, `head_ = 0`, `tail_ = n - 1`
(`size_t` subtraction), then fills `data_[0..tail_]`; the fill loop runs
out of bounds whenever `tail_ ≥ BS` (in particular when `n = 0`). -/
def mkFilled (BS : Nat) (n : Nat) (filler : Int) : Option BlockState :=
  let t := wDec n
  if t < BS then some ⟨fun i => if i ≤ t then filler else 0, n, 0, t⟩ else none

/-- `Block::PushFront`. -/
def pushFront (BS : Nat) (v : Int) (b : BlockState) : Option BlockState :=
  if b.head = b.tail ∧ b.head = 0 then
    (writeAt BS b.data (BS - 1) v).map fun d => ⟨d, wInc b.size, BS - 1, BS - 1⟩
  else
    (writeAt BS b.data (wDec b.head) v).map fun d => ⟨d, wInc b.size, wDec b.head, b.tail⟩

/-- `Block::PushBack`. -/
def pushBack (BS : Nat) (v : Int) (b : BlockState) : Option BlockState :=
  if b.head = b.tail ∧ b.tail = 0 ∧ b.size = 0 then
    (writeAt BS b.data b.tail v).map fun d => ⟨d, wInc b.size, b.head, b.tail⟩
  else
    (writeAt BS b.data (wInc b.tail) v).map fun d => ⟨d, wInc b.size, b.head, wInc b.tail⟩

/-- `Block::PopFront`: `data_[head_] = 0; head_ += 1; size_ -= 1`. -/
def popFront (BS : Nat) (b : BlockState) : Option BlockState :=
  (writeAt BS b.data b.head 0).map fun d => ⟨d, wDec b.size, wInc b.head, b.tail⟩

/-- `Block::PopBack`: `data_[tail_] = 0; tail_ -= 1; size_ -= 1`. -/
def popBack (BS : Nat) (b : BlockState) : Option BlockState :=
  (writeAt BS b.data b.tail 0).map fun d => ⟨d, wDec b.size, b.head, wDec b.tail⟩

/-- `Block::Get(index)`: `data_[head_ + index]`. -/
def get (BS : Nat) (b : BlockState) (i : Nat) : Option Int :=
  readAt BS b.data ((b.head + i) % W)

/-- `Block::IsEmpty`. -/
def isEmpty (b : BlockState) : Bool := b.size == 0

/-- `Block::IsFull`. -/
def isFull (BS : Nat) (b : BlockState) : Bool := b.size == BS

/-- `Block::IsHeadShifted`: `head_ != 0`. -/
def isHeadShifted (b : BlockState) : Bool := b.head != 0

/-- `Block::IsRightClose`: `head_ + size_ >= BlockSize` (in `size_t`). -/
def isRightClose (BS : Nat) (b : BlockState) : Bool :=
  decide (BS ≤ (b.head + b.size) % W)

/-- The occupied window of a block, read off in logical order; this is the
sequence `Get(0), ..., Get(size-1)` would return in the intended in-bounds
regime. -/
def window (b : BlockState) : List Int :=
  List.ofFn fun k : Fin b.size => b.data (b.head + k.val)

end BlockState

/-- State of `CircularBuffer<BlockSize>`: `size_`, `max_size_`, `head_`,
`tail_`, the slot array `buffer_` (each slot an optional owned block), and
the allocated length of that array. -/
structure RingState where
  size : Nat
  maxSize : Nat
  head : Nat
  tail : Nat
  slots : Nat → Option BlockState
  physLen : Nat

namespace RingState

/-- Read slot `i` of the array; `none` means the access itself is out of
bounds (distinct from reading a slot that holds no block). -/
def readSlot (r : RingState) (i : Nat) : Option (Option BlockState) :=
  if i < r.physLen then some (r.slots i) else none

/-- `buffer_[i]->...`: dereference the block owned by slot `i`; `none` when
the access is out of bounds or the slot owns no block (null dereference). -/
def deref (r : RingState) (i : Nat) : Option BlockState :=
  match r.readSlot i with
  | some (some b) => some b
  | _ => none

/-- The ring with slot `i` holding `ob` (all other state unchanged). -/
def setSlot (r : RingState) (i : Nat) (ob : Option BlockState) : RingState :=
  { r with slots := fun j => if j = i then ob else r.slots j }

/-- Store `ob` into slot `i` (bounds-checked). -/
def writeSlot (r : RingState) (i : Nat) (ob : Option BlockState) : Option RingState :=
  if i < r.physLen then some (setSlot r i ob) else none

/-- `CircularBuffer::GetBlocksCount`. -/
def getBlocksCount (elemCount : Nat) : Nat :=
  if elemCount = 0 then 1 else (elemCount - 1) / kBlockSize + 1

/-- `CircularBuffer()`: one default block in slot 0. -/
def init : RingState :=
  ⟨1, kBufferInitMaxSize, 0, 0,
   fun i => if i = 0 then some BlockState.mkDefault else none, kBufferInitMaxSize⟩

/-- `CircularBuffer(elem_count)`: presets `size_` to the block count needed
for `elem_count` elements but populates only slot 0. -/
def mkForCount (elemCount : Nat) : RingState :=
  let s := getBlocksCount elemCount
  let m := max s kBufferInitMaxSize
  ⟨s, m, 0, 0, fun i => if i = 0 then some BlockState.mkDefault else none, m⟩

/-- The block the `CircularBuffer(elem_count, filler)` constructor builds for
slot `i` (the last slot gets `elem_count % BlockSize` elements). -/
def filledSlot (elemCount : Nat) (filler : Int) (s i : Nat) : Option BlockState :=
  if i = s - 1 then BlockState.mkFilled kBlockSize (elemCount % kBlockSize) filler
  else BlockState.mkFilled kBlockSize kBlockSize filler

/-- `CircularBuffer(elem_count, filler)`: populates slots `0..size_-1`;
fails if any block construction performs an out-of-bounds fill. -/
def mkFilledRing (elemCount : Nat) (filler : Int) : Option RingState :=
  let s := getBlocksCount elemCount
  let m := max s kBufferInitMaxSize
  if ∀ i < s, (filledSlot elemCount filler s i).isSome then
    some ⟨s, m, 0, 0, fun i => if i < s then filledSlot elemCount filler s i else none, m⟩
  else none

/-- `CircularBuffer::IsFull`. -/
def isFull (r : RingState) : Bool := r.size == r.maxSize

/-- `CircularBuffer::IsEmpty`: `size_ == 1 and buffer_[0]->IsEmpty()`; the
`and` short-circuits, so slot 0 is dereferenced only when `size_ == 1`. -/
def isEmpty (r : RingState) : Option Bool :=
  if r.size = 1 then (r.deref 0).map BlockState.isEmpty else some false

/-- `CircularBuffer::IsTailDataBlockFull`. -/
def isTailDataBlockFull (r : RingState) : Option Bool :=
  (r.deref r.tail).map (BlockState.isFull kBlockSize)

/-- `CircularBuffer::IsHeadDataBlockFull`. -/
def isHeadDataBlockFull (r : RingState) : Option Bool :=
  (r.deref r.head).map (BlockState.isFull kBlockSize)

/-- `CircularBuffer::TailIsUsedHead`: tail block `IsRightClose`. -/
def tailIsUsedHead (r : RingState) : Option Bool :=
  (r.deref r.tail).map (BlockState.isRightClose kBlockSize)

/-- `CircularBuffer::IsHeadStartNotShifted`: head block `!IsHeadShifted`. -/
def isHeadStartNotShifted (r : RingState) : Option Bool :=
  (r.deref r.head).map fun b => !b.isHeadShifted

/-- `CircularBuffer::AddTailDataBlock`. -/
def addTailDataBlock (r : RingState) : Option RingState :=
  let t := if r.tail = wDec r.maxSize then 0 else wInc r.tail
  (writeSlot { r with tail := t } t (some BlockState.mkDefault)).map
    fun r2 => { r2 with size := wInc r2.size }

/-- `CircularBuffer::AddHeadDataBlock`. -/
def addHeadDataBlock (r : RingState) : Option RingState :=
  let h := if r.head = 0 then wDec r.maxSize else wDec r.head
  (writeSlot { r with head := h } h (some BlockState.mkDefault)).map
    fun r2 => { r2 with size := wInc r2.size }

/-- `CircularBuffer::DeleteDataBlockFromTail`. -/
def deleteDataBlockFromTail (r : RingState) : Option RingState :=
  (r.writeSlot r.tail none).map fun r1 =>
    if r1.tail = r1.head then { r1 with tail := 0, head := 0, size := 0 }
    else
      let t := if r1.tail = 0 then wDec r1.maxSize else wDec r1.tail
      { r1 with tail := t, size := wDec r1.size }

/-- `CircularBuffer::DeleteDataBlockFromHead`. -/
def deleteDataBlockFromHead (r : RingState) : Option RingState :=
  (r.writeSlot r.head none).map fun r1 =>
    if r1.head = r1.tail then { r1 with tail := 0, head := 0, size := 0 }
    else
      let h := if r1.head = wDec r1.maxSize then 0 else wInc r1.head
      { r1 with head := h, size := wDec r1.size }

/-- `CircularBuffer::GetTailDataBlock`: lazily allocates a block when the
tail slot is empty, then returns the tail block (with the updated ring). -/
def getTailDataBlock (r : RingState) : Option (RingState × BlockState) :=
  match r.readSlot r.tail with
  | none => none
  | some none =>
      (r.writeSlot r.tail (some BlockState.mkDefault)).map
        fun r2 => (r2, BlockState.mkDefault)
  | some (some b) => some (r, b)

/-- `CircularBuffer::GetHeadDataBlock`: returns `buffer_[head_].get()`; a
null result is dereferenced by every caller, so it is a failure here. -/
def getHeadDataBlock (r : RingState) : Option BlockState :=
  r.deref r.head

/-- `CircularBuffer::GetElementByIndex`. -/
def getElementByIndex (r : RingState) (i : Nat) : Option Int := do
  let hb ← r.deref r.head
  if i < hb.size then hb.get kBlockSize i
  else
    let j := i - hb.size
    let t := ((r.head + j / kBlockSize + 1) % W) % r.maxSize
    let b ← r.deref t
    b.get kBlockSize (j % kBlockSize)

/-- `CircularBuffer::ExpandBuffer`: walks the ring from `head_` to `tail_`
(trip count = ring distance), moving slots into positions `0..`, then sets
`head_ = 0`, `tail_ = size_ - 1`, doubles `max_size_`. Fails if a write
lands beyond the new array. -/
def expandBuffer (r : RingState) : Option RingState :=
  let newSize := (r.maxSize * 2) % W
  let d := (r.tail + r.maxSize - r.head) % r.maxSize
  if d < newSize then
    some ⟨r.size, newSize, 0, wDec r.size,
      (fun i => if i ≤ d then r.slots ((r.head + i) % r.maxSize) else none), newSize⟩
  else none

/-- `CircularBuffer::Clear`: resets slots `0..size_-1` only, installs a
fresh block in slot 0, zeroes `size_`, `head_`, `tail_`, and resets
`max_size_` to its initial value without reallocating the array. -/
def clear (r : RingState) : Option RingState :=
  if r.size ≤ r.physLen ∧ 0 < r.physLen then
    some ⟨0, kBufferInitMaxSize, 0, 0,
      (fun i => if i = 0 then some BlockState.mkDefault
                else if i < r.size then none else r.slots i), r.physLen⟩
  else none

/-- `CircularBuffer(const CircularBuffer &)`: allocates `max_size_` slots and
deep-copies the blocks in slots `0..size_-1`, dereferencing each of those
slots of the source (a null slot there is a crash). -/
def copy (r : RingState) : Option RingState :=
  if ∀ i < r.size, (r.deref i).isSome then
    some ⟨r.size, r.maxSize, r.head, r.tail,
      (fun i => if i < r.size then r.slots i else none), r.maxSize⟩
  else none

/-- The state `CircularBuffer` move construction and move assignment leave
in the source: no slot array, `size_ = 1`, `max_size_ = head_ = tail_ = 0`. -/
def movedFrom : RingState := ⟨1, 0, 0, 0, fun _ => none, 0⟩

end RingState

/-- State of the public `Deque`: its ring (`data_proxy_`) and `size_`. -/
structure Deque where
  dataProxy : RingState
  size : Nat

namespace Deque

/-- `Deque()` (default-constructed). -/
def dequeInit : Deque := ⟨RingState.init, 0⟩

/-- Body of `Deque::PushBack` after the expansion guard: conditionally add
a tail block, then push into the tail block and store it back. -/
def pushBackRest (v : Int) (r1 : RingState) : Option RingState := do
  let needNew ←
    do
      let tf ← r1.isTailDataBlockFull
      if tf then pure true else r1.tailIsUsedHead
  let r2 ← if needNew then r1.addTailDataBlock else pure r1
  let (r3, tb) ← r2.getTailDataBlock
  let tb2 ← BlockState.pushBack kBlockSize v tb
  r3.writeSlot r3.tail (some tb2)

/-- `Deque::PushBack`. -/
def pushBack (v : Int) (d : Deque) : Option Deque := do
  let r0 := d.dataProxy
  let r1 ←
    if r0.isFull then do
      let tf ← r0.isTailDataBlockFull
      if tf then r0.expandBuffer else pure r0
    else pure r0
  let r4 ← pushBackRest v r1
  pure ⟨r4, wInc d.size⟩

/-- `Deque::PopBack`. -/
def popBack (d : Deque) : Option Deque := do
  let (r1, tb) ← d.dataProxy.getTailDataBlock
  let tb2 ← BlockState.popBack kBlockSize tb
  let r2 ← r1.writeSlot r1.tail (some tb2)
  let r3 ← if tb2.isEmpty ∧ 1 < d.size then r2.deleteDataBlockFromTail else pure r2
  pure ⟨r3, wDec d.size⟩

/-- Body of `Deque::PushFront` after the expansion guard: conditionally add
a head block (guarded by the `IsEmpty` check, which dereferences ring slot
0), then push into the head block and store it back. -/
def pushFrontRest (v : Int) (r1 : RingState) : Option RingState := do
  let e ← r1.isEmpty
  let needNew ← if e then pure false else r1.isHeadStartNotShifted
  let r2 ← if needNew then r1.addHeadDataBlock else pure r1
  let hb ← r2.getHeadDataBlock
  let hb2 ← BlockState.pushFront kBlockSize v hb
  r2.writeSlot r2.head (some hb2)

/-- `Deque::PushFront`. -/
def pushFront (v : Int) (d : Deque) : Option Deque := do
  let r0 := d.dataProxy
  let r1 ←
    if r0.isFull then do
      let hf ← r0.isHeadDataBlockFull
      if hf then r0.expandBuffer else pure r0
    else pure r0
  let r3 ← pushFrontRest v r1
  pure ⟨r3, wInc d.size⟩

/-- `Deque::PopFront`. -/
def popFront (d : Deque) : Option Deque := do
  let hb ← d.dataProxy.getHeadDataBlock
  let hb2 ← BlockState.popFront kBlockSize hb
  let r2 ← d.dataProxy.writeSlot d.dataProxy.head (some hb2)
  let r3 ← if hb2.isEmpty ∧ 1 < d.size then r2.deleteDataBlockFromHead else pure r2
  pure ⟨r3, wDec d.size⟩

/-- `Deque::operator[]` (read). -/
def getAt (d : Deque) (i : Nat) : Option Int :=
  d.dataProxy.getElementByIndex i

/-- `Deque::Size`. -/
def dequeSize (d : Deque) : Nat := d.size

/-- `Deque::Clear`. -/
def clear (d : Deque) : Option Deque :=
  d.dataProxy.clear.map fun r => ⟨r, 0⟩

/-- `Deque(size_t)`: `data_proxy_(size, 0)`, `size_ = size`. -/
def mkSized (n : Nat) : Option Deque :=
  (RingState.mkFilledRing n 0).map fun r => ⟨r, n⟩

/-- `Deque(std::initializer_list)`: ring pre-sized for `list.size()`
elements, then one `PushBack` per element. -/
def fromList (l : List Int) : Option Deque :=
  l.foldl (fun od v => od.bind (pushBack v))
    (some ⟨RingState.mkForCount l.length, 0⟩)

/-- Copy construction (`Deque`'s defaulted copy: ring deep copy plus the
element count). -/
def copy (d : Deque) : Option Deque :=
  d.dataProxy.copy.map fun r => ⟨r, d.size⟩

/-- Move construction (`Deque`'s defaulted move: the ring is
move-constructed, the `size_t` count is copied, so the source keeps it). -/
def moveCtor (d : Deque) : Deque × Deque :=
  (⟨d.dataProxy, d.size⟩, ⟨RingState.movedFrom, d.size⟩)

end Deque

/-- A public push/pop operation on the deque. -/
inductive DqOp where
  | pushBack (v : Int)
  | pushFront (v : Int)
  | popBack
  | popFront

/-- Apply one public operation. -/
def DqOp.apply : DqOp → Deque → Option Deque
  | .pushBack v, d => Deque.pushBack v d
  | .pushFront v, d => Deque.pushFront v d
  | .popBack, d => Deque.popBack d
  | .popFront, d => Deque.popFront d

/-- Whether an operation is a pop (has the nonempty-deque precondition). -/
def DqOp.isPop : DqOp → Bool
  | .popBack => true
  | .popFront => true
  | _ => false

/-- Run a sequence of operations from the default-constructed deque; no
contract checking, exactly what the code does. -/
def runOps (ops : List DqOp) : Option Deque :=
  ops.foldl (fun od op => od.bind op.apply) (some Deque.dequeInit)

/-- One step of the contract-respecting run: a pop on an empty deque is a
caller contract violation and aborts. -/
def stepChecked (od : Option Deque) (op : DqOp) : Option Deque :=
  od.bind fun d => if op.isPop ∧ d.size = 0 then none else op.apply d

/-- Contract-respecting run: like `runOps` but sequences that pop more than
they pushed are rejected. -/
def runChecked (ops : List DqOp) : Option Deque :=
  ops.foldl stepChecked (some Deque.dequeInit)

/-- Deque states reachable from the default-constructed deque by public
push/pop operations under the documented never-pop-empty contract. -/
def Reach (d : Deque) : Prop :=
  ∃ ops : List DqOp, runChecked ops = some d

/-- Strict evaluator for a sequence of `PushBack`s (used to evaluate the
initializer-list constructor step by step); equal to folding
`Deque.pushBack`, see `fromList_eq_runFromPB`. -/
def runFromPB (l : List Int) (d : Deque) : Option Deque :=
  match l with
  | [] => some d
  | v :: rest =>
    match Deque.pushBack v d with
    | none => none
    | some d2 => runFromPB rest d2

/-- Ring position of the `j`-th populated slot, counting from `head_`. -/
def slotIdx (r : RingState) (j : Nat) : Nat := (r.head + j) % r.maxSize

/-- The block (if any) in the `j`-th populated slot. -/
def blockIn (r : RingState) (j : Nat) : Option BlockState := r.slots (slotIdx r j)

/-- Element count of the `j`-th block (0 for an absent block). -/
def sizeAt (r : RingState) (j : Nat) : Nat :=
  ((blockIn r j).map BlockState.size).getD 0

/-- Window of the `j`-th block (empty for an absent block). -/
def windowAt (r : RingState) (j : Nat) : List Int :=
  ((blockIn r j).map BlockState.window).getD []

/-- Total element count stored in the ring's populated blocks. -/
def sumSizes (r : RingState) : Nat :=
  ∑ j ∈ Finset.range r.size, sizeAt r j

/-- Logical contents of the ring from block `j` on: the concatenation of
the occupied windows of blocks `j, j+1, ..., size_t-1`. -/
def absFrom (r : RingState) (j : Nat) : List Int :=
  if _ : j < r.size then windowAt r j ++ absFrom r (j + 1) else []
termination_by r.size - j

/-- Logical contents of the ring: the windows of all populated blocks from
the head block to the tail block, concatenated in ring order. -/
def absRing (r : RingState) : List Int := absFrom r 0

/-- Number of ring slots that own a block. -/
def popCount (r : RingState) : Nat :=
  ((List.range r.physLen).filter fun i => (r.slots i).isSome).length

/-- Window shape every populated block satisfies in every reachable state:
the occupied window is `[head, head+size-1]` inside the array when the
block is nonempty; an empty block either is fresh (`head = tail = 0`) or
keeps the residue of its last window (`tail = head - 1` in `size_t`
arithmetic, with `head ≤ kBlockSize`). -/
def BShape (b : BlockState) : Prop :=
  b.size ≤ kBlockSize ∧ b.head + b.size ≤ kBlockSize ∧
  (if b.size = 0
   then (b.head = 0 ∧ b.tail = 0) ∨ (b.head ≤ kBlockSize ∧ b.tail = wDec b.head)
   else b.tail = b.head + b.size - 1)

/-- Role-specific strengthening of `BShape` for the `j`-th of `m` populated
blocks: with at least two blocks, the head block is right-aligned
(`head + size = C`), the tail block is left-aligned (`head = 0`, and when
empty its `tail` is the `size_t` underflow value), and every block in
between is completely full. -/
def RoleInv (m j : Nat) (b : BlockState) : Prop :=
  BShape b ∧
  (2 ≤ m → j = 0 → b.head + b.size = kBlockSize) ∧
  (2 ≤ m → j = m - 1 → b.head = 0 ∧ (b.size = 0 → b.tail = W - 1)) ∧
  (2 ≤ m → 0 < j → j < m - 1 → b.size = kBlockSize)

/-- Invariant of the ring interior maintained by the deque's push/pop
protocol; `n` is the deque's element count field. -/
structure RingInv (r : RingState) (n : Nat) : Prop where
  maxPow : ∃ e, r.maxSize = 2 ^ (4 + e)
  maxLt : r.maxSize < W
  phys : r.physLen = r.maxSize
  headLt : r.head < r.maxSize
  sizePos : 1 ≤ r.size
  sizeLe : r.size ≤ r.maxSize
  tailEq : r.tail = (r.head + (r.size - 1)) % r.maxSize
  popu : ∀ j, j < r.size → (blockIn r j).isSome
  unpop : ∀ i, i < r.maxSize → (∀ j, j < r.size → i ≠ slotIdx r j) → r.slots i = none
  shapes : ∀ j, j < r.size → ∀ b, blockIn r j = some b → RoleInv r.size j b
  count : n = sumSizes r % W

/-- The deque invariant: its ring satisfies `RingInv` with the deque's own
count field. -/
def DequeInv (d : Deque) : Prop := RingInv d.dataProxy d.size

/-- A one-element block with window `[0,0]` (the result of one `PushBack`
on a fresh block, up to stored data). -/
def b100 : BlockState := ⟨fun _ => 0, 1, 0, 0⟩

/-- The state `Block::PopFront` leaves `b100` in. -/
def b100popped : BlockState := ⟨writeData (fun _ => 0) 0 0, wDec 1, wInc 0, 0⟩

/-- The state `Deque::Clear` leaves the default-constructed deque in. -/
def clearedInit : Deque :=
  ⟨⟨0, kBufferInitMaxSize, 0, 0,
    (fun i => if i = 0 then some BlockState.mkDefault
              else if i < RingState.init.size then none else RingState.init.slots i),
    kBufferInitMaxSize⟩, 0⟩

/-! ## Theorems -/

theorem fromList_eq_runFromPB (l : List Int) :
    Deque.fromList l = runFromPB l ⟨RingState.mkForCount l.length, 0⟩ := by
  unfold Deque.fromList
  generalize (⟨RingState.mkForCount l.length, 0⟩ : Deque) = d
  induction l generalizing d with
  | nil => rfl
  | cons v rest ih =>
    simp only [List.foldl, Option.bind, runFromPB]
    cases h : Deque.pushBack v d with
    | none =>
      clear ih
      induction rest with
      | nil => rfl
      | cons w r2 ih2 => simpa using ih2
    | some d2 => exact ih d2

/-- C1: FALSE of the code (the spec's intent, the code slips). The legal
sequence `PushBack(1); PopBack(); PushFront(3)` (it never pops more than
was pushed; the reference contents would be `[3]`) makes `Block::PopBack`
underflow `tail_` to `2^64 - 1`, after which `Block::PushFront` decrements
`head_` to `2^64 - 1` and writes far outside the 128-element block array:
the run aborts on an out-of-bounds access instead of matching the
reference list. -/
theorem claim_C1_push_pop_oob :
    runOps [DqOp.pushBack 1, DqOp.popBack, DqOp.pushFront 3] = none := by rfl

/-- C10: FALSE of the code. After `PushFront(1); PushBack(2); PopFront()`
the ring has `size_ = 1` yet slot 0 owns no block (the front pop deleted
the former head block in slot 0), so the `IsEmpty` check of the next
`PushFront` dereferences the empty slot 0 and the operation aborts. -/
theorem claim_C10_isempty_null_deref :
    (runOps [DqOp.pushFront 1, DqOp.pushBack 2, DqOp.popFront]).map
      (fun d => (d.dataProxy.size, (d.dataProxy.slots 0).isSome, d.size)) =
      some (1, false, 1)
    ∧ runOps [DqOp.pushFront 1, DqOp.pushBack 2, DqOp.popFront, DqOp.pushFront 3] =
      none := ⟨rfl, rfl⟩

/-- C5: FALSE of the code. `PushBack(1); PushFront(2)` leaves the ring
wrapped (`head_ = 15`, populated slots 15 and 0); the copy constructor
walks slots `0..size_-1 = 0..1` instead, dereferences the empty slot 1,
and crashes instead of deep-copying. -/
theorem claim_C5_copy_wrapped_crash :
    (runOps [DqOp.pushBack 1, DqOp.pushFront 2]).map (fun d => d.dataProxy.head) =
      some 15
    ∧ (runOps [DqOp.pushBack 1, DqOp.pushFront 2]).bind Deque.copy = none :=
  ⟨rfl, rfl⟩

/-- C4: FALSE of the code. `Deque(0)` and `Deque(128)` make
`Block(size, filler)` compute `tail_ = size - 1` with `size % 128 = 0`,
underflowing to `2^64 - 1`, so its fill loop writes out of bounds; and for
`Deque(130)` the ring's `tail_` stays 0 although two blocks exist, so the
next `PushBack` replaces the second block: index 128 then reads the pushed
value 7 and index 130 reads 0, i.e. the push disturbed the contents. -/
theorem claim_C4_sized_ctor_oob :
    Deque.mkSized 0 = none ∧ Deque.mkSized 128 = none ∧
    ((Deque.mkSized 130).bind (Deque.pushBack 7)).map
      (fun d => (d.size, d.getAt 128, d.getAt 130)) = some (131, some 7, some 0) :=
  ⟨rfl, rfl, rfl⟩

set_option maxRecDepth 100000 in
/-- C3: FALSE of the code. Constructing from a literal sequence of 1025
elements crashes: the list constructor presets the ring's `size_` to 9
while populating one slot, the pushes inflate it to 16, `ExpandBuffer`
then sets `tail_ = size_ - 1 = 15` although only slots `0..7` were
relocated, and the following full-tail check dereferences the empty slot
15, so no round trip happens. -/
theorem claim_C3_initializer_list_crash :
    Deque.fromList (List.replicate 1025 0) = none := by
  rw [fromList_eq_runFromPB]; rfl

/-- C2: counterexample. One `PushBack` then one `PopFront` brings a fresh
block's size back to 0, but `head_ = 1` and `tail_ = 0` (not reset to 0 as
claimed), and the subsequent `PushBack` writes at index 1, making the
window `[1,1]`, not `[0,0]`. -/
theorem claim_C2_counterexample :
    ((BlockState.pushBack kBlockSize 5 BlockState.mkDefault).bind
        (BlockState.popFront kBlockSize)).map (fun b => (b.size, b.head, b.tail)) =
      some (0, 1, 0)
    ∧ ((BlockState.pushBack kBlockSize 5 BlockState.mkDefault).bind
        (fun b => (BlockState.popFront kBlockSize b).bind
          (BlockState.pushBack kBlockSize 7))).map (fun b => (b.head, b.tail)) =
      some (1, 1) := ⟨rfl, rfl⟩

/-- C2, amended: `PopBack`/`PopFront` never reset `head_`/`tail_` (they
move one end by one, in wrapping `size_t` arithmetic, and leave the other
end alone, also when the size reaches 0); the claimed first-push behaviour
holds exactly for the `head_ = tail_ = 0` configuration of a fresh block:
there `PushFront` writes at `C-1` making the window `[C-1, C-1]` and
`PushBack` (when additionally `size_ = 0`) writes at 0 making the window
`[0, 0]`. -/
theorem claim_C2_amended :
    (∀ b b2 : BlockState, BlockState.popFront kBlockSize b = some b2 →
        b2.head = wInc b.head ∧ b2.tail = b.tail ∧ b2.size = wDec b.size)
    ∧ (∀ b b2 : BlockState, BlockState.popBack kBlockSize b = some b2 →
        b2.head = b.head ∧ b2.tail = wDec b.tail ∧ b2.size = wDec b.size)
    ∧ (∀ (v : Int) (b : BlockState), b.head = 0 → b.tail = 0 →
        (BlockState.pushFront kBlockSize v b).map (fun x => (x.head, x.tail)) =
          some (kBlockSize - 1, kBlockSize - 1))
    ∧ (∀ (v : Int) (b : BlockState), b.head = 0 → b.tail = 0 → b.size = 0 →
        (BlockState.pushBack kBlockSize v b).map (fun x => (x.head, x.tail)) =
          some (0, 0)) := by
  refine ⟨?_, ?_, ?_, ?_⟩
  · intro b b2 h
    unfold BlockState.popFront writeAt at h
    by_cases hb : b.head < kBlockSize
    · rw [if_pos hb] at h
      cases h
      exact ⟨rfl, rfl, rfl⟩
    · rw [if_neg hb] at h
      cases h
  · intro b b2 h
    unfold BlockState.popBack writeAt at h
    by_cases hb : b.tail < kBlockSize
    · rw [if_pos hb] at h
      cases h
      exact ⟨rfl, rfl, rfl⟩
    · rw [if_neg hb] at h
      cases h
  · intro v b hh ht
    unfold BlockState.pushFront
    rw [if_pos ⟨hh.trans ht.symm, hh⟩]
    rfl
  · intro v b hh ht hs
    unfold BlockState.pushBack
    rw [if_pos ⟨hh.trans ht.symm, ht, hs⟩, hh, ht]
    rfl

/-- C2, witness for the amended theorem at the concrete block `b100`. -/
theorem claim_C2_witness :
    BlockState.popFront kBlockSize b100 = some b100popped ∧
    (b100popped.head = wInc b100.head ∧ b100popped.tail = b100.tail ∧
      b100popped.size = wDec b100.size) :=
  ⟨rfl, claim_C2_amended.1 b100 b100popped rfl⟩

/-- C6: counterexample. Moving from a one-element deque leaves the source
with ring capacity 0 (not the default 16), no slot array at all (slot 0
owns nothing, so not one empty block), and element count still 1 (not 0):
the moved-from deque is not in the initial empty-ring state. -/
theorem claim_C6_counterexample :
    (runOps [DqOp.pushBack 5]).map (fun d =>
        ((Deque.moveCtor d).2.dataProxy.maxSize,
         ((Deque.moveCtor d).2.dataProxy.slots 0).isSome,
         (Deque.moveCtor d).2.size)) = some (0, false, 1)
    ∧ kBufferInitMaxSize = 16 := ⟨rfl, rfl⟩

/-- C6, amended: move construction and move assignment are deterministic
and total, transfer the ring and the count to the target, and leave the
source ring in the fixed state `size_ = 1`, `max_size_ = 0`,
`head_ = tail_ = 0` with no slot array, while the defaulted `Deque` move
leaves the source's element count unchanged; this is a consistent state,
but not the initial empty-ring state. -/
theorem claim_C6_amended :
    ∀ d : Deque,
      Deque.moveCtor d = (⟨d.dataProxy, d.size⟩, ⟨RingState.movedFrom, d.size⟩) ∧
      RingState.movedFrom.size = 1 ∧ RingState.movedFrom.maxSize = 0 ∧
      RingState.movedFrom.head = 0 ∧ RingState.movedFrom.tail = 0 ∧
      (∀ i, RingState.movedFrom.slots i = none) :=
  fun _ => ⟨rfl, rfl, rfl, rfl, rfl, fun _ => rfl⟩

/-- C7: counterexample. Clearing the fresh deque sets the ring's `size_`
field to 0 while a fresh ring has 1, so the result is not the fresh state;
and clearing a wrapped deque (`PushBack(1); PushFront(2)`, head slot 15)
leaves the block in slot 15 owned and undiscarded. -/
theorem claim_C7_counterexample :
    (Deque.clear Deque.dequeInit).map (fun d => d.dataProxy.size) = some 0
    ∧ Deque.dequeInit.dataProxy.size = 1
    ∧ ((runOps [DqOp.pushBack 1, DqOp.pushFront 2]).bind Deque.clear).map
        (fun d => ((d.dataProxy.slots 15).isSome, d.dataProxy.size)) =
      some (true, 0) := ⟨rfl, rfl, rfl⟩

/-- C7, amended: `Clear` resets the element count, ring `head_`, `tail_`
and ring `size_` to 0 (not to the fresh ring's 1), resets the capacity to
the initial 16, installs a fresh empty block in slot 0, discards only the
blocks of slots `0..size_-1`, and is idempotent. -/
theorem claim_C7_amended :
    ∀ d d2 : Deque, Deque.clear d = some d2 →
      d2.size = 0 ∧ d2.dataProxy.size = 0 ∧
      d2.dataProxy.maxSize = kBufferInitMaxSize ∧
      d2.dataProxy.head = 0 ∧ d2.dataProxy.tail = 0 ∧
      d2.dataProxy.slots 0 = some BlockState.mkDefault ∧
      Deque.clear d2 = some d2 := by
  intro d d2 h
  unfold Deque.clear RingState.clear at h
  by_cases hg : d.dataProxy.size ≤ d.dataProxy.physLen ∧ 0 < d.dataProxy.physLen
  · rw [if_pos hg] at h
    simp only [Option.map_some', Option.some.injEq] at h
    subst h
    refine ⟨rfl, rfl, rfl, rfl, rfl, rfl, ?_⟩
    unfold Deque.clear RingState.clear
    rw [if_pos (by exact ⟨Nat.zero_le _, hg.2⟩)]
    simp only [Option.map_some', Option.some.injEq]
    congr 1
    congr 1
    funext i
    by_cases hi : i = 0
    · subst hi; simp
    · simp [hi]
  · rw [if_neg hg] at h
    simp at h

/-- C7, witness for the amended theorem: clearing the fresh deque yields
`clearedInit`, and clearing again is the identity on it. -/
theorem claim_C7_witness :
    Deque.clear Deque.dequeInit = some clearedInit ∧
    Deque.clear clearedInit = some clearedInit :=
  ⟨rfl, (claim_C7_amended Deque.dequeInit clearedInit rfl).2.2.2.2.2.2⟩

set_option maxRecDepth 4000 in
/-- C9: counterexample. Four kinds of public operations other than push
and pop violate the claimed slot accounting: after `Clear()` on the fresh
deque the ring's `size_` field is 0 although slot 0 owns a block; the
initializer-list constructor for 129 elements leaves `size_ = 3` with only
2 populated slots; `Deque(130)` populates slots 0 and 1 but leaves
`tail_ = 0`, so the populated slots are not the wrapping range from
`head_` to `tail_` (which ends at slot 1); and the moved-from ring reports
`size_ = 1` with no populated slot at all. -/
theorem claim_C9_counterexample :
    (Deque.clear Deque.dequeInit).map
      (fun d => (d.dataProxy.size, popCount d.dataProxy)) = some (0, 1) ∧
    (Deque.fromList (List.replicate 129 0)).map
      (fun d => (d.dataProxy.size, popCount d.dataProxy)) = some (3, 2) ∧
    (Deque.mkSized 130).map
      (fun d => (d.dataProxy.size, d.dataProxy.head, d.dataProxy.tail,
        popCount d.dataProxy, slotIdx d.dataProxy (d.dataProxy.size - 1))) =
      some (2, 0, 0, 2, 1) ∧
    (Deque.moveCtor Deque.dequeInit).2.dataProxy.size = 1 ∧
    popCount (Deque.moveCtor Deque.dequeInit).2.dataProxy = 0 := by
  refine ⟨rfl, ?_, rfl, rfl, rfl⟩
  rw [fromList_eq_runFromPB]
  rfl


/-! ## Arithmetic and slot helpers for the ring invariant -/

theorem W_pos : 0 < W := by decide

theorem kBS_pos : 0 < kBlockSize := by decide

theorem kBS_lt_W : kBlockSize < W := by decide

theorem wInc_small {x : Nat} (h : x + 1 < W) : wInc x = x + 1 :=
  Nat.mod_eq_of_lt h

theorem wDec_zero : wDec 0 = W - 1 := by
  unfold wDec
  exact Nat.mod_eq_of_lt (by decide)

theorem wDec_small {x : Nat} (h1 : 1 ≤ x) (h2 : x < W) : wDec x = x - 1 := by
  unfold wDec
  have : x + (W - 1) = (x - 1) + W := by omega
  rw [this, Nat.add_mod_right]
  exact Nat.mod_eq_of_lt (by omega)

theorem wInc_wm1 : wInc (W - 1) = 0 := by
  unfold wInc
  have : W - 1 + 1 = W := by decide
  rw [this, Nat.mod_self]

theorem mod_succ_of_ne {a M : Nat} (hM : 0 < M) (h : a % M ≠ M - 1) :
    (a + 1) % M = a % M + 1 := by
  have hd := Nat.div_add_mod a M
  have h1 : a % M < M := Nat.mod_lt _ hM
  have h2 : a + 1 = a % M + 1 + M * (a / M) := by omega
  rw [h2, Nat.add_mul_mod_self_left]
  exact Nat.mod_eq_of_lt (by omega)

theorem mod_succ_of_eq {a M : Nat} (hM : 0 < M) (h : a % M = M - 1) :
    (a + 1) % M = 0 := by
  have hd := Nat.div_add_mod a M
  have h2 : a + 1 = M * (a / M) + M := by omega
  rw [h2, Nat.mul_add_mod, Nat.mod_self]

theorem next_idx {a M : Nat} (hM : 0 < M) (hMW : M < W) :
    (if a % M = wDec M then 0 else wInc (a % M)) = (a + 1) % M := by
  rw [wDec_small hM hMW]
  by_cases h : a % M = M - 1
  · rw [if_pos h, mod_succ_of_eq hM h]
  · rw [if_neg h, mod_succ_of_ne hM h]
    have h1 : a % M < M := Nat.mod_lt _ hM
    exact wInc_small (by omega)

theorem prev_idx {a M : Nat} (hM : 0 < M) (hMW : M < W) :
    (if a % M = 0 then wDec M else wDec (a % M)) = (a + (M - 1)) % M := by
  have h1 : a % M < M := Nat.mod_lt _ hM
  have hd := Nat.div_add_mod a M
  by_cases h : a % M = 0
  · rw [if_pos h, wDec_small hM hMW]
    have h2 : a + (M - 1) = M - 1 + M * (a / M) := by omega
    rw [h2, Nat.add_mul_mod_self_left]
    exact (Nat.mod_eq_of_lt (by omega)).symm
  · rw [if_neg h, wDec_small (by omega) (by omega)]
    have h2 : a + (M - 1) = a % M - 1 + M * (a / M) + M := by omega
    rw [h2, Nat.add_mod_right, Nat.add_mul_mod_self_left]
    exact (Nat.mod_eq_of_lt (by omega)).symm

theorem slotIdx_lt {r : RingState} (hM : 0 < r.maxSize) (j : Nat) :
    slotIdx r j < r.maxSize :=
  Nat.mod_lt _ hM

theorem slotIdx_inj {r : RingState} {j1 j2 : Nat} (h1 : j1 < r.maxSize)
    (h2 : j2 < r.maxSize) (h : slotIdx r j1 = slotIdx r j2) : j1 = j2 := by
  unfold slotIdx at h
  have hc : j1 ≡ j2 [MOD r.maxSize] :=
    Nat.ModEq.add_left_cancel' r.head h
  have := hc.eq_of_lt_of_lt h1 h2
  exact this

theorem RingInv.maxPos {r : RingState} {n : Nat} (hInv : RingInv r n) :
    0 < r.maxSize := by
  obtain ⟨e, he⟩ := hInv.maxPow
  rw [he]
  exact Nat.pos_pow_of_pos _ (by decide)

theorem deref_eq_slots {r : RingState} {i : Nat} (h : i < r.physLen) :
    r.deref i = r.slots i := by
  unfold RingState.deref RingState.readSlot
  rw [if_pos h]
  cases r.slots i <;> rfl

theorem writeSlot_of_lt {r : RingState} {i : Nat} (h : i < r.physLen)
    (ob : Option BlockState) :
    r.writeSlot i ob = some (r.setSlot i ob) := by
  unfold RingState.writeSlot
  rw [if_pos h]

theorem RingInv.slotIdx_physLt {r : RingState} {n : Nat} (hInv : RingInv r n)
    (j : Nat) : slotIdx r j < r.physLen := by
  rw [hInv.phys]
  exact slotIdx_lt hInv.maxPos j

theorem RingInv.head_physLt {r : RingState} {n : Nat} (hInv : RingInv r n) :
    r.head < r.physLen := by
  rw [hInv.phys]
  exact hInv.headLt

theorem RingInv.deref_head {r : RingState} {n : Nat} (hInv : RingInv r n) :
    r.deref r.head = blockIn r 0 := by
  rw [deref_eq_slots hInv.head_physLt]
  unfold blockIn slotIdx
  rw [Nat.add_zero, Nat.mod_eq_of_lt hInv.headLt]

theorem RingInv.tail_slotIdx {r : RingState} {n : Nat} (hInv : RingInv r n) :
    r.tail = slotIdx r (r.size - 1) := hInv.tailEq

theorem RingInv.deref_tail {r : RingState} {n : Nat} (hInv : RingInv r n) :
    r.deref r.tail = blockIn r (r.size - 1) := by
  rw [hInv.tail_slotIdx, deref_eq_slots (hInv.slotIdx_physLt _)]
  rfl

theorem sumSizes_update {r r2 : RingState} (hsz : r2.size = r.size) {j0 : Nat}
    (hj0 : j0 < r.size)
    (hb : ∀ j, j < r.size → j ≠ j0 → sizeAt r2 j = sizeAt r j) :
    sumSizes r2 + sizeAt r j0 = sumSizes r + sizeAt r2 j0 := by
  unfold sumSizes
  rw [hsz]
  have hmem : j0 ∈ Finset.range r.size := Finset.mem_range.mpr hj0
  rw [← Finset.add_sum_erase _ (sizeAt r2) hmem, ← Finset.add_sum_erase _ (sizeAt r) hmem]
  have hcong : ∑ j ∈ (Finset.range r.size).erase j0, sizeAt r2 j =
      ∑ j ∈ (Finset.range r.size).erase j0, sizeAt r j := by
    apply Finset.sum_congr rfl
    intro j hj
    have h1 := Finset.mem_of_mem_erase hj
    exact hb j (Finset.mem_range.mp h1) (Finset.ne_of_mem_erase hj)
  rw [hcong]
  omega

theorem getTailDataBlock_of_some {r : RingState} {bt : BlockState}
    (hlt : r.tail < r.physLen) (hs : r.slots r.tail = some bt) :
    r.getTailDataBlock = some (r, bt) := by
  unfold RingState.getTailDataBlock RingState.readSlot
  rw [if_pos hlt, hs]

theorem wDec_mod {s : Nat} (h : 1 ≤ s) : wDec (s % W) = (s - 1) % W := by
  unfold wDec
  rw [Nat.mod_add_mod]
  have h2 : s + (W - 1) = (s - 1) + W := by
    have : 0 < W := W_pos
    omega
  rw [h2, Nat.add_mod_right]

theorem sizeAt_eq {r : RingState} {j : Nat} {b : BlockState}
    (h : blockIn r j = some b) : sizeAt r j = b.size := by
  unfold sizeAt
  rw [h]
  rfl

theorem slotIdx_ne {r : RingState} {j1 j2 : Nat} (h1 : j1 < r.maxSize)
    (h2 : j2 < r.maxSize) (hne : j1 ≠ j2) : slotIdx r j1 ≠ slotIdx r j2 :=
  fun hc => hne (slotIdx_inj h1 h2 hc)

theorem blockIn_ex {r : RingState} {n : Nat} (hInv : RingInv r n) {j : Nat}
    (hj : j < r.size) : ∃ b, blockIn r j = some b := by
  have := hInv.popu j hj
  cases hb : blockIn r j with
  | none => rw [hb] at this; exact absurd this (by simp)
  | some b => exact ⟨b, rfl⟩

theorem blockIsEmpty_iff {b : BlockState} : b.isEmpty = true ↔ b.size = 0 := by
  simp [BlockState.isEmpty]

theorem sizeAt_le_sum {r : RingState} {j : Nat} (hj : j < r.size) :
    sizeAt r j ≤ sumSizes r :=
  Finset.single_le_sum (fun _ _ => Nat.zero_le _) (Finset.mem_range.mpr hj)

theorem blockIn_setSlot {r : RingState} {i : Nat} {ob : Option BlockState} (j : Nat) :
    blockIn (RingState.setSlot r i ob) j = if slotIdx r j = i then ob else blockIn r j :=
  rfl

theorem sizeAt_setSlot {r : RingState} {i : Nat} {ob : Option BlockState} (j : Nat) :
    sizeAt (RingState.setSlot r i ob) j =
      if slotIdx r j = i then (ob.map BlockState.size).getD 0 else sizeAt r j := by
  unfold sizeAt
  rw [blockIn_setSlot]
  split <;> rfl

@[simp] theorem setSlot_size (r : RingState) (i : Nat) (ob : Option BlockState) :
    (r.setSlot i ob).size = r.size := rfl

@[simp] theorem setSlot_maxSize (r : RingState) (i : Nat) (ob : Option BlockState) :
    (r.setSlot i ob).maxSize = r.maxSize := rfl

@[simp] theorem setSlot_head (r : RingState) (i : Nat) (ob : Option BlockState) :
    (r.setSlot i ob).head = r.head := rfl

@[simp] theorem setSlot_tail (r : RingState) (i : Nat) (ob : Option BlockState) :
    (r.setSlot i ob).tail = r.tail := rfl

@[simp] theorem setSlot_physLen (r : RingState) (i : Nat) (ob : Option BlockState) :
    (r.setSlot i ob).physLen = r.physLen := rfl

theorem wDec_lt (x : Nat) : wDec x < W := Nat.mod_lt _ W_pos

theorem wInc_lt (x : Nat) : wInc x < W := Nat.mod_lt _ W_pos

theorem sumSizes_ext {r1 : RingState} {m : Nat} (hm : r1.size = m) {f : Nat → Nat}
    (hf : ∀ j, j < m → sizeAt r1 j = f j) :
    sumSizes r1 = ∑ j ∈ Finset.range m, f j := by
  unfold sumSizes
  rw [hm]
  exact Finset.sum_congr rfl (fun j hj => hf j (Finset.mem_range.mp hj))

/-- Replacing the tail block by a block of the right shape preserves the
ring invariant (covers in-place tail pushes and pops). -/
theorem ringInv_replaceTail {r : RingState} {n n2 : Nat} (hInv : RingInv r n)
    {bold bnew : BlockState} (hbold : blockIn r (r.size - 1) = some bold)
    (hshape : RoleInv r.size (r.size - 1) bnew)
    (hn2 : n2 = (sumSizes r + bnew.size - bold.size) % W)
    (hble : bold.size ≤ sumSizes r) :
    RingInv (r.setSlot r.tail (some bnew)) n2 := by
  have hM := hInv.maxPos
  have hm1 : r.size - 1 < r.size := by have := hInv.sizePos; omega
  refine { maxPow := hInv.maxPow, maxLt := hInv.maxLt, phys := hInv.phys,
           headLt := hInv.headLt, sizePos := hInv.sizePos, sizeLe := hInv.sizeLe,
           tailEq := hInv.tailEq, popu := ?_, unpop := ?_, shapes := ?_, count := ?_ }
  · intro j hj
    rw [blockIn_setSlot]
    by_cases hc : slotIdx r j = r.tail
    · rw [if_pos hc]; simp
    · rw [if_neg hc]; exact hInv.popu j hj
  · intro i hi hni
    show (if i = r.tail then some bnew else r.slots i) = none
    rw [if_neg]
    · exact hInv.unpop i hi hni
    · have h2 : i ≠ slotIdx r (r.size - 1) := hni (r.size - 1) hm1
      rw [← hInv.tail_slotIdx] at h2
      exact h2
  · intro j hj b hb
    have hj1 : j < r.size := hj
    rw [blockIn_setSlot] at hb
    by_cases hc : slotIdx r j = r.tail
    · rw [if_pos hc] at hb
      injection hb with hb
      subst hb
      have hj2 : j = r.size - 1 := by
        apply slotIdx_inj (by have := hInv.sizeLe; omega : j < r.maxSize)
          (by have := hInv.sizeLe; omega)
        rw [hc, hInv.tail_slotIdx]
      subst hj2
      exact hshape
    · rw [if_neg hc] at hb
      exact hInv.shapes j hj1 b hb
  · have hb2 : ∀ j, j < r.size → j ≠ r.size - 1 →
        sizeAt (r.setSlot r.tail (some bnew)) j = sizeAt r j := by
      intro j hjlt hjne
      have hne : slotIdx r j ≠ r.tail := by
        rw [hInv.tail_slotIdx]
        exact slotIdx_ne (by have := hInv.sizeLe; omega)
          (by have := hInv.sizeLe; omega) hjne
      rw [sizeAt_setSlot, if_neg hne]
    have hupd := @sumSizes_update r (r.setSlot r.tail (some bnew)) rfl
      (r.size - 1) hm1 hb2
    have h1 : sizeAt r (r.size - 1) = bold.size := sizeAt_eq hbold
    have h2 : sizeAt (r.setSlot r.tail (some bnew)) (r.size - 1) = bnew.size := by
      rw [sizeAt_setSlot, if_pos (hInv.tail_slotIdx).symm]
      rfl
    rw [h1, h2] at hupd
    have hS : sumSizes (r.setSlot r.tail (some bnew)) =
        sumSizes r + bnew.size - bold.size := by omega
    rw [hn2, hS]

theorem RingInv.head_slotIdx {r : RingState} {n : Nat} (hInv : RingInv r n) :
    slotIdx r 0 = r.head := by
  unfold slotIdx
  rw [Nat.add_zero, Nat.mod_eq_of_lt hInv.headLt]

/-- Replacing the head block by a block of the right shape preserves the
ring invariant (covers in-place head pushes and pops). -/
theorem ringInv_replaceHead {r : RingState} {n n2 : Nat} (hInv : RingInv r n)
    {bold bnew : BlockState} (hbold : blockIn r 0 = some bold)
    (hshape : RoleInv r.size 0 bnew)
    (hn2 : n2 = (sumSizes r + bnew.size - bold.size) % W)
    (hble : bold.size ≤ sumSizes r) :
    RingInv (r.setSlot r.head (some bnew)) n2 := by
  have hM := hInv.maxPos
  have hm0 : 0 < r.size := hInv.sizePos
  refine { maxPow := hInv.maxPow, maxLt := hInv.maxLt, phys := hInv.phys,
           headLt := hInv.headLt, sizePos := hInv.sizePos, sizeLe := hInv.sizeLe,
           tailEq := hInv.tailEq, popu := ?_, unpop := ?_, shapes := ?_, count := ?_ }
  · intro j hj
    rw [blockIn_setSlot]
    by_cases hc : slotIdx r j = r.head
    · rw [if_pos hc]; simp
    · rw [if_neg hc]; exact hInv.popu j hj
  · intro i hi hni
    show (if i = r.head then some bnew else r.slots i) = none
    rw [if_neg]
    · exact hInv.unpop i hi hni
    · have h2 : i ≠ slotIdx r 0 := hni 0 hm0
      rw [hInv.head_slotIdx] at h2
      exact h2
  · intro j hj b hb
    have hj1 : j < r.size := hj
    rw [blockIn_setSlot] at hb
    by_cases hc : slotIdx r j = r.head
    · rw [if_pos hc] at hb
      injection hb with hb
      subst hb
      have hj2 : j = 0 := by
        apply slotIdx_inj (by have := hInv.sizeLe; omega : j < r.maxSize)
          (by have := hInv.sizeLe; omega)
        rw [hc, hInv.head_slotIdx]
      subst hj2
      exact hshape
    · rw [if_neg hc] at hb
      exact hInv.shapes j hj1 b hb
  · have hb2 : ∀ j, j < r.size → j ≠ 0 →
        sizeAt (r.setSlot r.head (some bnew)) j = sizeAt r j := by
      intro j hjlt hjne
      have hne : slotIdx r j ≠ r.head := by
        rw [← hInv.head_slotIdx]
        exact slotIdx_ne (by have := hInv.sizeLe; omega)
          (by have := hInv.sizeLe; omega) hjne
      rw [sizeAt_setSlot, if_neg hne]
    have hupd := @sumSizes_update r (r.setSlot r.head (some bnew)) rfl 0 hm0 hb2
    have h1 : sizeAt r 0 = bold.size := sizeAt_eq hbold
    have h2 : sizeAt (r.setSlot r.head (some bnew)) 0 = bnew.size := by
      rw [sizeAt_setSlot, if_pos hInv.head_slotIdx]
      rfl
    rw [h1, h2] at hupd
    have hS : sumSizes (r.setSlot r.head (some bnew)) =
        sumSizes r + bnew.size - bold.size := by omega
    rw [hn2, hS]

/-- The ring state after `DeleteDataBlockFromTail` removes the tail block
(non-reset branch): one fewer populated slot, tail retreated one ring
position. -/
def delTailRing (r : RingState) : RingState :=
  ⟨wDec r.size, r.maxSize, r.head, (r.head + (r.size - 2)) % r.maxSize,
   (fun i => if i = r.tail then none else r.slots i), r.physLen⟩

/-- The ring state after `DeleteDataBlockFromHead` removes the head block
(non-reset branch): one fewer populated slot, head advanced one ring
position. -/
def delHeadRing (r : RingState) : RingState :=
  ⟨wDec r.size, r.maxSize, (r.head + 1) % r.maxSize, r.tail,
   (fun i => if i = r.head then none else r.slots i), r.physLen⟩

theorem delTail_size (r : RingState) : (delTailRing r).size = wDec r.size := by
  unfold delTailRing; rfl

theorem delTail_maxSize (r : RingState) : (delTailRing r).maxSize = r.maxSize := by
  unfold delTailRing; rfl

theorem delTail_head (r : RingState) : (delTailRing r).head = r.head := by
  unfold delTailRing; rfl

theorem delTail_tail (r : RingState) :
    (delTailRing r).tail = (r.head + (r.size - 2)) % r.maxSize := by
  unfold delTailRing; rfl

theorem delTail_physLen (r : RingState) : (delTailRing r).physLen = r.physLen := by
  unfold delTailRing; rfl

theorem delTail_slots (r : RingState) (i : Nat) :
    (delTailRing r).slots i = if i = r.tail then none else r.slots i := by
  unfold delTailRing; rfl

theorem slotIdx_delTail (r : RingState) (j : Nat) :
    slotIdx (delTailRing r) j = slotIdx r j := by
  unfold delTailRing slotIdx
  rfl

theorem blockIn_delTail (r : RingState) (j : Nat) :
    blockIn (delTailRing r) j =
      if slotIdx r j = r.tail then none else blockIn r j := by
  unfold blockIn delTailRing slotIdx
  rfl

theorem delHead_size (r : RingState) : (delHeadRing r).size = wDec r.size := by
  unfold delHeadRing; rfl

theorem delHead_maxSize (r : RingState) : (delHeadRing r).maxSize = r.maxSize := by
  unfold delHeadRing; rfl

theorem delHead_head (r : RingState) :
    (delHeadRing r).head = (r.head + 1) % r.maxSize := by
  unfold delHeadRing; rfl

theorem delHead_tail (r : RingState) : (delHeadRing r).tail = r.tail := by
  unfold delHeadRing; rfl

theorem delHead_physLen (r : RingState) : (delHeadRing r).physLen = r.physLen := by
  unfold delHeadRing; rfl

theorem delHead_slots (r : RingState) (i : Nat) :
    (delHeadRing r).slots i = if i = r.head then none else r.slots i := by
  unfold delHeadRing; rfl

/-- Description and invariant preservation of deleting the (empty) tail
block when at least one other block remains. -/
theorem ringInv_deleteTail {r : RingState} {n : Nat} (hInv : RingInv r n)
    (hm : 2 ≤ r.size) {bold : BlockState}
    (hbold : blockIn r (r.size - 1) = some bold) (hbz : bold.size = 0) :
    r.deleteDataBlockFromTail = some (delTailRing r)
    ∧ RingInv (delTailRing r) n := by
  have hM := hInv.maxPos
  have hMW := hInv.maxLt
  have hmle := hInv.sizeLe
  have hlt : r.tail < r.physLen := by
    rw [hInv.tail_slotIdx, hInv.phys]
    exact slotIdx_lt hM _
  have hne : ¬ r.tail = r.head := by
    intro hc
    rw [hInv.tail_slotIdx, ← hInv.head_slotIdx] at hc
    have := slotIdx_inj (by omega : r.size - 1 < r.maxSize) (by omega) hc
    omega
  have ht3 : (if r.tail = 0 then wDec r.maxSize else wDec r.tail) =
      (r.head + (r.size - 2)) % r.maxSize := by
    rw [hInv.tailEq, prev_idx hM hMW]
    have h5 : r.head + (r.size - 1) + (r.maxSize - 1) =
        r.head + (r.size - 2) + r.maxSize := by omega
    rw [h5, Nat.add_mod_right]
  have hdec : wDec r.size = r.size - 1 := wDec_small hInv.sizePos (by omega)
  constructor
  · unfold RingState.deleteDataBlockFromTail
    rw [writeSlot_of_lt hlt, Option.map_some']
    simp only [setSlot_tail, setSlot_head, setSlot_maxSize, setSlot_size]
    rw [if_neg hne, ht3]
    unfold delTailRing RingState.setSlot
    rfl
  · refine { maxPow := ?_, maxLt := ?_, phys := ?_, headLt := ?_,
             sizePos := ?_, sizeLe := ?_, tailEq := ?_,
             popu := ?_, unpop := ?_, shapes := ?_, count := ?_ }
    · rw [delTail_maxSize]; exact hInv.maxPow
    · rw [delTail_maxSize]; exact hInv.maxLt
    · rw [delTail_physLen, delTail_maxSize]; exact hInv.phys
    · rw [delTail_head, delTail_maxSize]; exact hInv.headLt
    · rw [delTail_size, hdec]; omega
    · rw [delTail_size, delTail_maxSize, hdec]; omega
    · rw [delTail_tail, delTail_head, delTail_size, delTail_maxSize, hdec]
      have h6 : r.size - 1 - 1 = r.size - 2 := by omega
      rw [h6]
    · intro j hj
      rw [delTail_size, hdec] at hj
      rw [blockIn_delTail, if_neg]
      · exact hInv.popu j (by omega)
      · rw [hInv.tail_slotIdx]
        exact slotIdx_ne (by omega) (by omega) (by omega)
    · intro i hi hni
      rw [delTail_maxSize] at hi
      rw [delTail_slots]
      by_cases hc : i = r.tail
      · rw [if_pos hc]
      · rw [if_neg hc]
        apply hInv.unpop i hi
        intro j hjm
        by_cases hjlast : j = r.size - 1
        · subst hjlast
          rw [← hInv.tail_slotIdx]
          exact hc
        · have hj2 : j < (delTailRing r).size := by
            rw [delTail_size, hdec]; omega
          have := hni j hj2
          rw [slotIdx_delTail] at this
          exact this
    · intro j hj b hb
      rw [delTail_size, hdec] at hj
      rw [blockIn_delTail, if_neg] at hb
      · obtain ⟨hBS, hh0, ht0, hmid0⟩ := hInv.shapes j (by omega) b hb
        rw [delTail_size, hdec]
        refine ⟨hBS, ?_, ?_, ?_⟩
        · intro h2 hj0
          exact hh0 (by omega) hj0
        · intro h2 hjm
          have hsz128 : b.size = kBlockSize := hmid0 (by omega) (by omega) (by omega)
          constructor
          · have h7 := hBS.2.1
            omega
          · intro hz
            rw [hsz128] at hz
            exact absurd hz (by decide)
        · intro h2 hj1a hj2a
          exact hmid0 (by omega) hj1a (by omega)
      · rw [hInv.tail_slotIdx]
        exact slotIdx_ne (by omega) (by omega) (by omega)
    · have hsum : sumSizes (delTailRing r) =
          ∑ j ∈ Finset.range (r.size - 1), sizeAt r j := by
        apply sumSizes_ext
        · rw [delTail_size, hdec]
        · intro j hj
          unfold sizeAt
          rw [blockIn_delTail, if_neg]
          rw [hInv.tail_slotIdx]
          exact slotIdx_ne (by omega) (by omega) (by omega)
      have h0 : sizeAt r (r.size - 1) = 0 := by
        rw [sizeAt_eq hbold, hbz]
      have hsplit : sumSizes r =
          (∑ j ∈ Finset.range (r.size - 1), sizeAt r j) + sizeAt r (r.size - 1) := by
        unfold sumSizes
        have h8 : r.size = (r.size - 1) + 1 := by omega
        conv_lhs => rw [h8]
        rw [Finset.sum_range_succ]
      have h9 : (∑ j ∈ Finset.range (r.size - 1), sizeAt r j) = sumSizes r := by omega
      rw [hsum, h9]
      exact hInv.count

theorem slotIdx_delHead {r : RingState} {n : Nat} (hInv : RingInv r n) (j : Nat) :
    slotIdx (delHeadRing r) j = slotIdx r (j + 1) := by
  unfold slotIdx
  rw [delHead_head, delHead_maxSize, Nat.mod_add_mod]
  have h1 : r.head + 1 + j = r.head + (j + 1) := by omega
  rw [h1]

theorem blockIn_delHead {r : RingState} {n : Nat} (hInv : RingInv r n) (j : Nat) :
    blockIn (delHeadRing r) j =
      if slotIdx r (j + 1) = r.head then none else blockIn r (j + 1) := by
  unfold blockIn
  rw [slotIdx_delHead hInv, delHead_slots]

/-- Description and invariant preservation of deleting the (empty) head
block when at least one other block remains. -/
theorem ringInv_deleteHead {r : RingState} {n : Nat} (hInv : RingInv r n)
    (hm : 2 ≤ r.size) {bold : BlockState}
    (hbold : blockIn r 0 = some bold) (hbz : bold.size = 0) :
    r.deleteDataBlockFromHead = some (delHeadRing r)
    ∧ RingInv (delHeadRing r) n := by
  have hM := hInv.maxPos
  have hMW := hInv.maxLt
  have hmle := hInv.sizeLe
  have hlt : r.head < r.physLen := hInv.head_physLt
  have hne : ¬ r.head = r.tail := by
    intro hc
    rw [hInv.tail_slotIdx, ← hInv.head_slotIdx] at hc
    have := slotIdx_inj (by omega : 0 < r.maxSize) (by omega) hc
    omega
  have hmodh : r.head % r.maxSize = r.head := Nat.mod_eq_of_lt hInv.headLt
  have hh3 : (if r.head = wDec r.maxSize then 0 else wInc r.head) =
      (r.head + 1) % r.maxSize := by
    have h2 := @next_idx r.head r.maxSize hM hMW
    rw [hmodh] at h2
    exact h2
  have hdec : wDec r.size = r.size - 1 := wDec_small hInv.sizePos (by omega)
  have hji : ∀ j, j + 1 < r.size → slotIdx r (j + 1) ≠ r.head := by
    intro j hj
    rw [← hInv.head_slotIdx]
    exact slotIdx_ne (by omega) (by omega) (by omega)
  constructor
  · unfold RingState.deleteDataBlockFromHead
    rw [writeSlot_of_lt hlt, Option.map_some']
    simp only [setSlot_tail, setSlot_head, setSlot_maxSize, setSlot_size]
    rw [if_neg hne, hh3]
    unfold delHeadRing RingState.setSlot
    rfl
  · refine { maxPow := ?_, maxLt := ?_, phys := ?_, headLt := ?_,
             sizePos := ?_, sizeLe := ?_, tailEq := ?_,
             popu := ?_, unpop := ?_, shapes := ?_, count := ?_ }
    · rw [delHead_maxSize]; exact hInv.maxPow
    · rw [delHead_maxSize]; exact hInv.maxLt
    · rw [delHead_physLen, delHead_maxSize]; exact hInv.phys
    · rw [delHead_head, delHead_maxSize]; exact Nat.mod_lt _ hM
    · rw [delHead_size, hdec]; omega
    · rw [delHead_size, delHead_maxSize, hdec]; omega
    · rw [delHead_tail, delHead_head, delHead_size, delHead_maxSize, hdec,
        Nat.mod_add_mod, hInv.tailEq]
      have h6 : r.head + 1 + (r.size - 1 - 1) = r.head + (r.size - 1) := by omega
      rw [h6]
    · intro j hj
      rw [delHead_size, hdec] at hj
      rw [blockIn_delHead hInv, if_neg (hji j (by omega))]
      exact hInv.popu (j + 1) (by omega)
    · intro i hi hni
      rw [delHead_maxSize] at hi
      rw [delHead_slots]
      by_cases hc : i = r.head
      · rw [if_pos hc]
      · rw [if_neg hc]
        apply hInv.unpop i hi
        intro j hjm
        by_cases hj0 : j = 0
        · subst hj0
          rw [hInv.head_slotIdx]
          exact hc
        · have hj2 : j - 1 < (delHeadRing r).size := by
            rw [delHead_size, hdec]; omega
          have h7 := hni (j - 1) hj2
          rw [slotIdx_delHead hInv] at h7
          have h8 : j - 1 + 1 = j := by omega
          rw [h8] at h7
          exact h7
    · intro j hj b hb
      rw [delHead_size, hdec] at hj
      rw [blockIn_delHead hInv, if_neg (hji j (by omega))] at hb
      obtain ⟨hBS, hh0, ht0, hmid0⟩ := hInv.shapes (j + 1) (by omega) b hb
      rw [delHead_size, hdec]
      refine ⟨hBS, ?_, ?_, ?_⟩
      · intro h2 hj0
        subst hj0
        have hsz128 : b.size = kBlockSize := hmid0 (by omega) (by omega) (by omega)
        have h7 := hBS.2.1
        omega
      · intro h2 hjm
        exact ht0 (by omega) (by omega)
      · intro h2 hj1a hj2a
        exact hmid0 (by omega) (by omega) (by omega)
    · have hsum : sumSizes (delHeadRing r) =
          ∑ j ∈ Finset.range (r.size - 1), sizeAt r (j + 1) := by
        apply sumSizes_ext
        · rw [delHead_size, hdec]
        · intro j hj
          unfold sizeAt
          rw [blockIn_delHead hInv, if_neg (hji j (by omega))]
      have h0 : sizeAt r 0 = 0 := by
        rw [sizeAt_eq hbold, hbz]
      have hsplit : sumSizes r =
          (∑ j ∈ Finset.range (r.size - 1), sizeAt r (j + 1)) + sizeAt r 0 := by
        unfold sumSizes
        have h8 : r.size = (r.size - 1) + 1 := by omega
        conv_lhs => rw [h8]
        rw [Finset.sum_range_succ']
      have h9 : (∑ j ∈ Finset.range (r.size - 1), sizeAt r (j + 1)) = sumSizes r := by
        omega
      rw [hsum, h9]
      exact hInv.count

theorem mkBlock_size (d : Nat → Int) (s h t : Nat) : (BlockState.mk d s h t).size = s := rfl

theorem mkBlock_head (d : Nat → Int) (s h t : Nat) : (BlockState.mk d s h t).head = h := rfl

theorem mkBlock_tail (d : Nat → Int) (s h t : Nat) : (BlockState.mk d s h t).tail = t := rfl

/-- In a single-block ring the total element count is the block's count. -/
theorem ringInv_single_sum {r : RingState} (hm1 : r.size = 1)
    {b : BlockState} (hb : blockIn r (r.size - 1) = some b) :
    sumSizes r = b.size := by
  have hb0 : blockIn r 0 = some b := by
    rw [hm1] at hb
    exact hb
  unfold sumSizes
  rw [hm1, Finset.sum_range_one]
  exact sizeAt_eq hb0

/-- `Deque::PopBack` preserves the invariant on a nonempty deque. -/
theorem inv_popBack {d d2 : Deque} (hInv : DequeInv d) (hn : d.size ≠ 0)
    (h : Deque.popBack d = some d2) : DequeInv d2 := by
  have hI : RingInv d.dataProxy d.size := hInv
  have hM : 0 < d.dataProxy.maxSize := hI.maxPos
  have hMW : d.dataProxy.maxSize < W := hI.maxLt
  have hk : kBlockSize = 128 := rfl
  have hkW : kBlockSize < W := kBS_lt_W
  have hmpos := hI.sizePos
  have hmle := hI.sizeLe
  obtain ⟨bt, hbt⟩ := blockIn_ex hI (show d.dataProxy.size - 1 < d.dataProxy.size by omega)
  have hs : d.dataProxy.slots d.dataProxy.tail = some bt := by
    rw [hI.tail_slotIdx]; exact hbt
  have hlt : d.dataProxy.tail < d.dataProxy.physLen := by
    rw [hI.tail_slotIdx, hI.phys]; exact slotIdx_lt hM _
  have hgt := getTailDataBlock_of_some hlt hs
  obtain ⟨⟨hsz, hbd, htl⟩, hhd, htlr, hmid⟩ :=
    hI.shapes _ (show d.dataProxy.size - 1 < d.dataProxy.size by omega) bt hbt
  have hbtsum : bt.size ≤ sumSizes d.dataProxy := by
    have := sizeAt_le_sum (show d.dataProxy.size - 1 < d.dataProxy.size by omega)
    rw [sizeAt_eq hbt] at this
    exact this
  simp only [Deque.popBack, Option.bind_eq_bind', hgt, Option.some_bind] at h
  by_cases hs0 : bt.size = 0
  · -- empty tail block: the pop writes at tail_ = 2^64 - 1, out of bounds
    exfalso
    have hm2 : 2 ≤ d.dataProxy.size := by
      by_contra hx
      have hm1 : d.dataProxy.size = 1 := by omega
      have hsum : sumSizes d.dataProxy = bt.size := ringInv_single_sum hm1 hbt
      exact hn (by rw [hI.count, hsum, hs0]; exact Nat.zero_mod W)
    obtain ⟨hbh0, htw⟩ := htlr hm2 rfl
    have htW : bt.tail = W - 1 := htw hs0
    have hpop : BlockState.popBack kBlockSize bt = none := by
      unfold BlockState.popBack writeAt
      rw [htW, if_neg (by omega)]
      rfl
    rw [hpop] at h
    simp only [Option.none_bind] at h
    exact Option.noConfusion h
  · -- nonempty tail block: the pop succeeds
    have hbs1 : 1 ≤ bt.size := by omega
    rw [if_neg hs0] at htl
    have htlt : bt.tail < kBlockSize := by omega
    have hwdS : wDec bt.size = bt.size - 1 := wDec_small hbs1 (by omega)
    obtain ⟨tb2, hpop, hts, hth, htt⟩ :
        ∃ tb2, BlockState.popBack kBlockSize bt = some tb2 ∧
          tb2.size = wDec bt.size ∧ tb2.head = bt.head ∧ tb2.tail = wDec bt.tail := by
      refine ⟨⟨writeData bt.data bt.tail 0, wDec bt.size, bt.head, wDec bt.tail⟩, ?_,
        mkBlock_size _ _ _ _, mkBlock_head _ _ _ _, mkBlock_tail _ _ _ _⟩
      unfold BlockState.popBack writeAt
      rw [if_pos htlt]
      rfl
    rw [hpop] at h
    simp only [Option.some_bind] at h
    rw [writeSlot_of_lt hlt] at h
    simp only [Option.some_bind] at h
    have hie : (tb2.isEmpty = true) ↔ bt.size = 1 := by
      rw [blockIsEmpty_iff, hts, hwdS]
      omega
    have hshape : RoleInv d.dataProxy.size (d.dataProxy.size - 1) tb2 := by
      refine ⟨⟨?_, ?_, ?_⟩, ?_, ?_, ?_⟩
      · rw [hts, hwdS]; omega
      · rw [hth, hts, hwdS]; omega
      · rw [hts, hth, htt, hwdS]
        by_cases hbs2 : bt.size = 1
        · rw [if_pos (by omega)]
          right
          exact ⟨by omega, by rw [show bt.tail = bt.head by omega]⟩
        · rw [if_neg (by omega)]
          rw [wDec_small (by omega) (by omega)]
          omega
      · intro h2 h0
        omega
      · intro h2 h0
        obtain ⟨hbh0, _⟩ := htlr h2 rfl
        refine ⟨by rw [hth]; exact hbh0, ?_⟩
        intro hz
        rw [hts, hwdS] at hz
        rw [htt, show bt.tail = 0 by omega, wDec_zero]
      · intro h2 h0 h3
        omega
    have hsum1 : 1 ≤ sumSizes d.dataProxy := by omega
    have hn2 : wDec d.size =
        (sumSizes d.dataProxy + tb2.size - bt.size) % W := by
      rw [hts, hwdS, hI.count, wDec_mod hsum1]
      have harg : sumSizes d.dataProxy + (bt.size - 1) - bt.size =
          sumSizes d.dataProxy - 1 := by omega
      rw [harg]
    by_cases hdel : bt.size = 1 ∧ 1 < d.size
    · -- the tail block was emptied and other elements remain: delete it
      have hcond : tb2.isEmpty = true ∧ 1 < d.size := ⟨hie.mpr hdel.1, hdel.2⟩
      rw [if_pos hcond] at h
      have hm2 : 2 ≤ d.dataProxy.size := by
        by_contra hx
        have hm1 : d.dataProxy.size = 1 := by omega
        have hsum : sumSizes d.dataProxy = bt.size := ringInv_single_sum hm1 hbt
        have hone : d.size = 1 := by
          rw [hI.count, hsum, hdel.1]
          exact Nat.mod_eq_of_lt (by decide)
        omega
      have hInv2 : RingInv (d.dataProxy.setSlot d.dataProxy.tail (some tb2))
          (wDec d.size) :=
        ringInv_replaceTail hI hbt hshape hn2 hbtsum
      have hbt2 : blockIn (d.dataProxy.setSlot d.dataProxy.tail (some tb2))
          ((d.dataProxy.setSlot d.dataProxy.tail (some tb2)).size - 1) = some tb2 := by
        rw [setSlot_size, blockIn_setSlot, if_pos (hI.tail_slotIdx).symm]
      have htb20 : tb2.size = 0 := by
        rw [hts, hwdS]
        omega
      obtain ⟨hdeq, hdinv⟩ := ringInv_deleteTail hInv2
        (by rw [setSlot_size]; exact hm2) hbt2 htb20
      rw [hdeq] at h
      simp only [Option.some_bind, Option.pure_def, Option.some.injEq] at h
      subst h
      exact hdinv
    · -- the tail block is stored back in place
      have hcond : ¬(tb2.isEmpty = true ∧ 1 < d.size) :=
        fun hc => hdel ⟨hie.mp hc.1, hc.2⟩
      rw [if_neg hcond] at h
      simp only [Option.pure_def, Option.some_bind, Option.some.injEq] at h
      subst h
      exact ringInv_replaceTail hI hbt hshape hn2 hbtsum

/-- `Deque::PopFront` preserves the invariant on a nonempty deque. -/
theorem inv_popFront {d d2 : Deque} (hInv : DequeInv d) (hn : d.size ≠ 0)
    (h : Deque.popFront d = some d2) : DequeInv d2 := by
  have hI : RingInv d.dataProxy d.size := hInv
  have hM : 0 < d.dataProxy.maxSize := hI.maxPos
  have hMW : d.dataProxy.maxSize < W := hI.maxLt
  have hk : kBlockSize = 128 := rfl
  have hkW : kBlockSize < W := kBS_lt_W
  have hmpos := hI.sizePos
  have hmle := hI.sizeLe
  obtain ⟨bh, hbh⟩ := blockIn_ex hI (show 0 < d.dataProxy.size by omega)
  have hgh : d.dataProxy.getHeadDataBlock = some bh := by
    unfold RingState.getHeadDataBlock
    rw [hI.deref_head]
    exact hbh
  have hlt : d.dataProxy.head < d.dataProxy.physLen := hI.head_physLt
  obtain ⟨⟨hsz, hbd, htl⟩, hhd, htlr, hmid⟩ :=
    hI.shapes 0 (show 0 < d.dataProxy.size by omega) bh hbh
  have hbhsum : bh.size ≤ sumSizes d.dataProxy := by
    have := sizeAt_le_sum (show 0 < d.dataProxy.size by omega)
    rw [sizeAt_eq hbh] at this
    exact this
  simp only [Deque.popFront, Option.bind_eq_bind', hgh, Option.some_bind] at h
  by_cases hs0 : bh.size = 0
  · -- empty head block: the pop writes at head_ = C, out of bounds
    exfalso
    have hm2 : 2 ≤ d.dataProxy.size := by
      by_contra hx
      have hm1 : d.dataProxy.size = 1 := by omega
      have hbh1 : blockIn d.dataProxy (d.dataProxy.size - 1) = some bh := by
        rw [show d.dataProxy.size - 1 = 0 by omega]
        exact hbh
      have hsum : sumSizes d.dataProxy = bh.size := ringInv_single_sum hm1 hbh1
      exact hn (by rw [hI.count, hsum, hs0]; exact Nat.zero_mod W)
    have hh128 : bh.head = kBlockSize := by
      have := hhd hm2 rfl
      omega
    have hpop : BlockState.popFront kBlockSize bh = none := by
      unfold BlockState.popFront writeAt
      rw [if_neg (by omega)]
      rfl
    rw [hpop] at h
    simp only [Option.none_bind] at h
    exact Option.noConfusion h
  · -- nonempty head block: the pop succeeds
    have hbs1 : 1 ≤ bh.size := by omega
    rw [if_neg hs0] at htl
    have hhlt : bh.head < kBlockSize := by omega
    have hwdS : wDec bh.size = bh.size - 1 := wDec_small hbs1 (by omega)
    have hwIh : wInc bh.head = bh.head + 1 := wInc_small (by omega)
    obtain ⟨hb2, hpop, hs2, hh2, ht2⟩ :
        ∃ hb2, BlockState.popFront kBlockSize bh = some hb2 ∧
          hb2.size = wDec bh.size ∧ hb2.head = wInc bh.head ∧ hb2.tail = bh.tail := by
      refine ⟨⟨writeData bh.data bh.head 0, wDec bh.size, wInc bh.head, bh.tail⟩, ?_,
        mkBlock_size _ _ _ _, mkBlock_head _ _ _ _, mkBlock_tail _ _ _ _⟩
      unfold BlockState.popFront writeAt
      rw [if_pos hhlt]
      rfl
    rw [hpop] at h
    simp only [Option.some_bind] at h
    rw [writeSlot_of_lt hlt] at h
    simp only [Option.some_bind] at h
    have hie : (hb2.isEmpty = true) ↔ bh.size = 1 := by
      rw [blockIsEmpty_iff, hs2, hwdS]
      omega
    have hshape : RoleInv d.dataProxy.size 0 hb2 := by
      refine ⟨⟨?_, ?_, ?_⟩, ?_, ?_, ?_⟩
      · rw [hs2, hwdS]; omega
      · rw [hh2, hs2, hwIh, hwdS]; omega
      · rw [hs2, hh2, ht2, hwdS, hwIh]
        by_cases hbs2 : bh.size = 1
        · rw [if_pos (by omega)]
          right
          refine ⟨by omega, ?_⟩
          rw [show bh.tail = bh.head by omega,
            wDec_small (by omega) (by omega)]
          omega
        · rw [if_neg (by omega)]
          omega
      · intro h2 h0
        have := hhd h2 rfl
        rw [hh2, hs2, hwIh, hwdS]
        omega
      · intro h2 h0
        omega
      · intro h2 h0 h3
        omega
    have hsum1 : 1 ≤ sumSizes d.dataProxy := by omega
    have hn2 : wDec d.size =
        (sumSizes d.dataProxy + hb2.size - bh.size) % W := by
      rw [hs2, hwdS, hI.count, wDec_mod hsum1]
      have harg : sumSizes d.dataProxy + (bh.size - 1) - bh.size =
          sumSizes d.dataProxy - 1 := by omega
      rw [harg]
    by_cases hdel : bh.size = 1 ∧ 1 < d.size
    · -- the head block was emptied and other elements remain: delete it
      have hcond : hb2.isEmpty = true ∧ 1 < d.size := ⟨hie.mpr hdel.1, hdel.2⟩
      rw [if_pos hcond] at h
      have hm2 : 2 ≤ d.dataProxy.size := by
        by_contra hx
        have hm1 : d.dataProxy.size = 1 := by omega
        have hbh1 : blockIn d.dataProxy (d.dataProxy.size - 1) = some bh := by
          rw [show d.dataProxy.size - 1 = 0 by omega]
          exact hbh
        have hsum : sumSizes d.dataProxy = bh.size := ringInv_single_sum hm1 hbh1
        have hone : d.size = 1 := by
          rw [hI.count, hsum, hdel.1]
          exact Nat.mod_eq_of_lt (by decide)
        omega
      have hInv2 : RingInv (d.dataProxy.setSlot d.dataProxy.head (some hb2))
          (wDec d.size) :=
        ringInv_replaceHead hI hbh hshape hn2 hbhsum
      have hbh2 : blockIn (d.dataProxy.setSlot d.dataProxy.head (some hb2)) 0 =
          some hb2 := by
        rw [blockIn_setSlot, if_pos hI.head_slotIdx]
      have hhb20 : hb2.size = 0 := by
        rw [hs2, hwdS]
        omega
      obtain ⟨hdeq, hdinv⟩ := ringInv_deleteHead hInv2
        (by rw [setSlot_size]; exact hm2) hbh2 hhb20
      rw [hdeq] at h
      simp only [Option.some_bind, Option.pure_def, Option.some.injEq] at h
      subst h
      exact hdinv
    · -- the head block is stored back in place
      have hcond : ¬(hb2.isEmpty = true ∧ 1 < d.size) :=
        fun hc => hdel ⟨hie.mp hc.1, hc.2⟩
      rw [if_neg hcond] at h
      simp only [Option.pure_def, Option.some_bind, Option.some.injEq] at h
      subst h
      exact ringInv_replaceHead hI hbh hshape hn2 hbhsum

theorem blockIsFull_iff {BS : Nat} {b : BlockState} :
    BlockState.isFull BS b = true ↔ b.size = BS := by
  simp [BlockState.isFull]

theorem ringIsFull_iff {r : RingState} : r.isFull = true ↔ r.size = r.maxSize := by
  simp [RingState.isFull]

theorem mkDefault_size : BlockState.mkDefault.size = 0 := rfl

theorem mkDefault_head : BlockState.mkDefault.head = 0 := rfl

theorem mkDefault_tail : BlockState.mkDefault.tail = 0 := rfl

theorem bshape_mkDefault : BShape BlockState.mkDefault := by
  refine ⟨by decide, by decide, ?_⟩
  rw [if_pos mkDefault_size]
  left
  exact ⟨mkDefault_head, mkDefault_tail⟩

/-- `Block::PushBack` on a block whose window is not right-closed: the new
element lands at array index `head + size` and the window grows by one on
the right. -/
theorem pushBack_block {b : BlockState} (v : Int) (hsh : BShape b)
    (hlt : b.head + b.size < kBlockSize) :
    ∃ b2, BlockState.pushBack kBlockSize v b = some b2 ∧
      b2.size = b.size + 1 ∧ b2.head = b.head ∧ b2.tail = b.head + b.size := by
  have hk : kBlockSize = 128 := rfl
  have hkW : kBlockSize < W := kBS_lt_W
  obtain ⟨hs1, hs2, hs3⟩ := hsh
  have hwS : wInc b.size = b.size + 1 := wInc_small (by omega)
  by_cases hfr : b.head = b.tail ∧ b.tail = 0 ∧ b.size = 0
  · refine ⟨⟨writeData b.data b.tail v, wInc b.size, b.head, b.tail⟩, ?_, ?_, ?_, ?_⟩
    · unfold BlockState.pushBack writeAt
      rw [if_pos hfr, if_pos (show b.tail < kBlockSize by omega)]
      rfl
    · rw [mkBlock_size]; exact hwS
    · rw [mkBlock_head]
    · rw [mkBlock_tail]; omega
  · have ht' : wInc b.tail = b.head + b.size := by
      by_cases hz : b.size = 0
      · rw [if_pos hz] at hs3
        rcases hs3 with ⟨hh0, ht0⟩ | ⟨hhle, htd⟩
        · exact absurd ⟨by omega, ht0, hz⟩ hfr
        · by_cases hh0 : b.head = 0
          · rw [htd, hh0, wDec_zero, wInc_wm1]
            omega
          · rw [htd, wDec_small (by omega) (by omega), wInc_small (by omega)]
            omega
      · rw [if_neg hz] at hs3
        rw [hs3, wInc_small (by omega)]
        omega
    have hwb : wInc b.tail < kBlockSize := by rw [ht']; omega
    refine ⟨⟨writeData b.data (wInc b.tail) v, wInc b.size, b.head, wInc b.tail⟩,
      ?_, ?_, ?_, ?_⟩
    · unfold BlockState.pushBack writeAt
      rw [if_neg hfr, if_pos hwb]
      rfl
    · rw [mkBlock_size]; exact hwS
    · rw [mkBlock_head]
    · rw [mkBlock_tail]; exact ht'

/-- `Block::PushFront` on a block with `head_ = tail_ = 0` (the fresh
shape): the element lands at `C - 1` and the window is `[C-1, C-1]`. -/
theorem pushFront_block_zero {b : BlockState} (v : Int)
    (hfr : b.head = b.tail ∧ b.head = 0) :
    ∃ b2, BlockState.pushFront kBlockSize v b = some b2 ∧
      b2.size = wInc b.size ∧ b2.head = kBlockSize - 1 ∧ b2.tail = kBlockSize - 1 := by
  refine ⟨⟨writeData b.data (kBlockSize - 1) v, wInc b.size, kBlockSize - 1,
    kBlockSize - 1⟩, ?_, mkBlock_size _ _ _ _, mkBlock_head _ _ _ _,
    mkBlock_tail _ _ _ _⟩
  unfold BlockState.pushFront writeAt
  rw [if_pos hfr, if_pos (by decide : kBlockSize - 1 < kBlockSize)]
  rfl

/-- `Block::PushFront` on a block with `1 ≤ head_ ≤ C`: the element lands
at `head_ - 1` and the window grows by one on the left. -/
theorem pushFront_block_shift {b : BlockState} (v : Int)
    (hne : ¬(b.head = b.tail ∧ b.head = 0)) (h1 : 1 ≤ b.head)
    (h2 : b.head ≤ kBlockSize) :
    ∃ b2, BlockState.pushFront kBlockSize v b = some b2 ∧
      b2.size = wInc b.size ∧ b2.head = b.head - 1 ∧ b2.tail = b.tail := by
  have hk : kBlockSize = 128 := rfl
  have hkW : kBlockSize < W := kBS_lt_W
  have hwd : wDec b.head = b.head - 1 := wDec_small h1 (by omega)
  refine ⟨⟨writeData b.data (wDec b.head) v, wInc b.size, wDec b.head, b.tail⟩,
    ?_, mkBlock_size _ _ _ _, ?_, mkBlock_tail _ _ _ _⟩
  · unfold BlockState.pushFront writeAt
    rw [if_neg hne, if_pos (by rw [hwd]; omega)]
    rfl
  · rw [mkBlock_head]; exact hwd

/-- `Block::PushFront` on a block emptied by `PopBack` (`head_ = 0`,
`tail_` underflowed): `head_ -= 1` wraps to `2^64 - 1` and the write is out
of bounds. -/
theorem pushFront_block_crash {b : BlockState} (v : Int)
    (hh0 : b.head = 0) (hnt : b.tail ≠ 0) :
    BlockState.pushFront kBlockSize v b = none := by
  unfold BlockState.pushFront writeAt
  rw [if_neg (fun hc => hnt (by omega : b.tail = 0)), hh0, wDec_zero,
    if_neg (by decide : ¬ W - 1 < kBlockSize)]
  rfl

/-- The ring state `AddTailDataBlock` produces on a coherent ring: `size_`
incremented, `tail_` advanced one ring position, a fresh block there. -/
def addTailRing (r : RingState) : RingState :=
  ⟨wInc r.size, r.maxSize, r.head, (r.head + r.size) % r.maxSize,
   fun i => if i = (r.head + r.size) % r.maxSize then some BlockState.mkDefault
            else r.slots i, r.physLen⟩

theorem addTail_size (r : RingState) : (addTailRing r).size = wInc r.size := by
  unfold addTailRing; rfl

theorem addTail_maxSize (r : RingState) : (addTailRing r).maxSize = r.maxSize := by
  unfold addTailRing; rfl

theorem addTail_head (r : RingState) : (addTailRing r).head = r.head := by
  unfold addTailRing; rfl

theorem addTail_tail (r : RingState) :
    (addTailRing r).tail = (r.head + r.size) % r.maxSize := by
  unfold addTailRing; rfl

theorem addTail_physLen (r : RingState) : (addTailRing r).physLen = r.physLen := by
  unfold addTailRing; rfl

theorem addTail_slots (r : RingState) (i : Nat) :
    (addTailRing r).slots i =
      if i = (r.head + r.size) % r.maxSize then some BlockState.mkDefault
      else r.slots i := by
  unfold addTailRing; rfl

theorem slotIdx_addTail (r : RingState) (j : Nat) :
    slotIdx (addTailRing r) j = slotIdx r j := by
  unfold slotIdx
  rw [addTail_head, addTail_maxSize]

theorem blockIn_addTail (r : RingState) (j : Nat) :
    blockIn (addTailRing r) j =
      if slotIdx r j = (r.head + r.size) % r.maxSize then some BlockState.mkDefault
      else blockIn r j := by
  unfold blockIn
  rw [slotIdx_addTail, addTail_slots]

theorem setSlot_slots (r : RingState) (i : Nat) (ob : Option BlockState) (j : Nat) :
    (r.setSlot i ob).slots j = if j = i then ob else r.slots j := by
  unfold RingState.setSlot; rfl

theorem slotIdx_setSlot (r : RingState) (i : Nat) (ob : Option BlockState) (j : Nat) :
    slotIdx (r.setSlot i ob) j = slotIdx r j := by
  unfold slotIdx
  rw [setSlot_head, setSlot_maxSize]

/-- On a coherent ring `AddTailDataBlock` succeeds and produces
`addTailRing`. -/
theorem addTail_eq {r : RingState} {n : Nat} (hInv : RingInv r n) :
    r.addTailDataBlock = some (addTailRing r) := by
  have hM := hInv.maxPos
  have hT : (if r.tail = wDec r.maxSize then 0 else wInc r.tail) =
      (r.head + r.size) % r.maxSize := by
    rw [hInv.tailEq, next_idx hM hInv.maxLt]
    have h5 : r.head + (r.size - 1) + 1 = r.head + r.size := by
      have := hInv.sizePos
      omega
    rw [h5]
  unfold RingState.addTailDataBlock
  simp only [hT]
  have hphys : ((r.head + r.size) % r.maxSize) <
      ({ r with tail := (r.head + r.size) % r.maxSize } : RingState).physLen := by
    show (r.head + r.size) % r.maxSize < r.physLen
    rw [hInv.phys]
    exact Nat.mod_lt _ hM
  rw [writeSlot_of_lt hphys, Option.map_some']
  simp only [setSlot_size]
  unfold addTailRing RingState.setSlot
  rfl

/-- The fresh tail slot is immediately readable. -/
theorem getTail_addTail {r : RingState} {n : Nat} (hInv : RingInv r n) :
    (addTailRing r).getTailDataBlock =
      some (addTailRing r, BlockState.mkDefault) := by
  apply getTailDataBlock_of_some
  · rw [addTail_tail, addTail_physLen, hInv.phys]
    exact Nat.mod_lt _ hInv.maxPos
  · rw [addTail_tail, addTail_slots, if_pos rfl]

/-- After `AddTailDataBlock` and a push of one element into the fresh tail
block, the ring invariant holds again (the old tail block must have been
right-closed, which is exactly the condition under which the deque adds a
tail block). -/
theorem ringInv_addTailPushed {r : RingState} {n : Nat} (hInv : RingInv r n)
    (hms : r.size < r.maxSize)
    (hfull : ∀ b, blockIn r (r.size - 1) = some b → b.head + b.size = kBlockSize)
    {b2 : BlockState} (hb2s : b2.size = 1) (hb2h : b2.head = 0) (hb2t : b2.tail = 0) :
    RingInv ((addTailRing r).setSlot (addTailRing r).tail (some b2)) (wInc n) := by
  have hM := hInv.maxPos
  have hMW := hInv.maxLt
  have hmpos := hInv.sizePos
  have hmle := hInv.sizeLe
  have hk : kBlockSize = 128 := rfl
  have hws : wInc r.size = r.size + 1 := wInc_small (by omega)
  have hsT : slotIdx r r.size = (r.head + r.size) % r.maxSize := by
    unfold slotIdx
    rfl
  refine { maxPow := ?_, maxLt := ?_, phys := ?_, headLt := ?_,
           sizePos := ?_, sizeLe := ?_, tailEq := ?_,
           popu := ?_, unpop := ?_, shapes := ?_, count := ?_ }
  · rw [setSlot_maxSize, addTail_maxSize]; exact hInv.maxPow
  · rw [setSlot_maxSize, addTail_maxSize]; exact hInv.maxLt
  · rw [setSlot_physLen, addTail_physLen, setSlot_maxSize, addTail_maxSize]
    exact hInv.phys
  · rw [setSlot_head, addTail_head, setSlot_maxSize, addTail_maxSize]
    exact hInv.headLt
  · rw [setSlot_size, addTail_size, hws]; omega
  · rw [setSlot_size, addTail_size, hws, setSlot_maxSize, addTail_maxSize]; omega
  · rw [setSlot_tail, addTail_tail, setSlot_head, addTail_head, setSlot_size,
      addTail_size, setSlot_maxSize, addTail_maxSize, hws, Nat.add_sub_cancel]
  · intro j hj
    rw [setSlot_size, addTail_size, hws] at hj
    rw [blockIn_setSlot, slotIdx_addTail, addTail_tail]
    by_cases hj2 : j = r.size
    · subst hj2
      rw [if_pos hsT]
      rfl
    · have hne1 : slotIdx r j ≠ (r.head + r.size) % r.maxSize := by
        rw [← hsT]; exact slotIdx_ne (by omega) (by omega) hj2
      rw [if_neg hne1, blockIn_addTail, if_neg hne1]
      exact hInv.popu j (by omega)
  · intro i hi hni
    rw [setSlot_maxSize, addTail_maxSize] at hi
    rw [setSlot_slots, addTail_tail, addTail_slots]
    have hniT : i ≠ (r.head + r.size) % r.maxSize := by
      have := hni r.size (by rw [setSlot_size, addTail_size, hws]; omega)
      rw [slotIdx_setSlot, slotIdx_addTail, hsT] at this
      exact this
    rw [if_neg hniT, if_neg hniT]
    apply hInv.unpop i hi
    intro j hjlt
    have := hni j (by rw [setSlot_size, addTail_size, hws]; omega)
    rw [slotIdx_setSlot, slotIdx_addTail] at this
    exact this
  · intro j hj b hb
    rw [setSlot_size, addTail_size, hws] at hj ⊢
    rw [blockIn_setSlot, slotIdx_addTail, addTail_tail] at hb
    by_cases hj2 : j = r.size
    · subst hj2
      rw [if_pos hsT] at hb
      simp only [Option.some.injEq] at hb
      subst hb
      refine ⟨⟨?_, ?_, ?_⟩, ?_, ?_, ?_⟩
      · rw [hb2s]; omega
      · rw [hb2h, hb2s]; omega
      · rw [hb2s, hb2h, hb2t, if_neg (by omega)]
      · intro h2 h0; omega
      · intro h2 h0
        refine ⟨hb2h, fun hz => ?_⟩
        rw [hb2s] at hz
        omega
      · intro h2 h0 h3
        omega
    · have hne1 : slotIdx r j ≠ (r.head + r.size) % r.maxSize := by
        rw [← hsT]; exact slotIdx_ne (by omega) (by omega) hj2
      rw [if_neg hne1, blockIn_addTail, if_neg hne1] at hb
      have hjr : j < r.size := by omega
      obtain ⟨hBS, hhd, htlr, hmid⟩ := hInv.shapes j hjr b hb
      refine ⟨hBS, ?_, ?_, ?_⟩
      · intro h2 h0
        subst h0
        by_cases hm2 : 2 ≤ r.size
        · exact hhd hm2 rfl
        · apply hfull b
          rw [show r.size - 1 = 0 by omega]
          exact hb
      · intro h2 h0
        exact absurd (by omega : j = r.size) hj2
      · intro h2 h0 h3
        by_cases hjl : j = r.size - 1
        · have hfx := hfull b (by rw [← hjl]; exact hb)
          have hm2 : 2 ≤ r.size := by omega
          have hbh0 := (htlr hm2 hjl).1
          omega
        · exact hmid (by omega) h0 (by omega)
  · have hSat : sizeAt ((addTailRing r).setSlot (addTailRing r).tail (some b2))
        r.size = 1 := by
      unfold sizeAt
      rw [blockIn_setSlot, slotIdx_addTail, addTail_tail, if_pos hsT]
      simp only [Option.map_some', Option.getD_some]
      exact hb2s
    have hSmall : ∀ j, j < r.size →
        sizeAt ((addTailRing r).setSlot (addTailRing r).tail (some b2)) j =
          sizeAt r j := by
      intro j hjr
      unfold sizeAt
      rw [blockIn_setSlot, slotIdx_addTail, addTail_tail]
      have hne1 : slotIdx r j ≠ (r.head + r.size) % r.maxSize := by
        rw [← hsT]; exact slotIdx_ne (by omega) (by omega) (by omega)
      rw [if_neg hne1, blockIn_addTail, if_neg hne1]
    have hSF : sumSizes ((addTailRing r).setSlot (addTailRing r).tail (some b2)) =
        sumSizes r + 1 := by
      unfold sumSizes
      rw [setSlot_size, addTail_size, hws, Finset.sum_range_succ, hSat]
      have hc : ∑ j ∈ Finset.range r.size,
          sizeAt ((addTailRing r).setSlot (addTailRing r).tail (some b2)) j =
          ∑ j ∈ Finset.range r.size, sizeAt r j :=
        Finset.sum_congr rfl fun j hj => hSmall j (Finset.mem_range.mp hj)
      rw [hc]
    show (n + 1) % W =
      sumSizes ((addTailRing r).setSlot (addTailRing r).tail (some b2)) % W
    rw [hSF, hInv.count, Nat.mod_add_mod]

/-- The ring state `AddHeadDataBlock` produces on a coherent ring: `size_`
incremented, `head_` moved one ring position back, a fresh block there. -/
def addHeadRing (r : RingState) : RingState :=
  ⟨wInc r.size, r.maxSize, (r.head + (r.maxSize - 1)) % r.maxSize, r.tail,
   fun i => if i = (r.head + (r.maxSize - 1)) % r.maxSize
            then some BlockState.mkDefault else r.slots i, r.physLen⟩

theorem addHead_size (r : RingState) : (addHeadRing r).size = wInc r.size := by
  unfold addHeadRing; rfl

theorem addHead_maxSize (r : RingState) : (addHeadRing r).maxSize = r.maxSize := by
  unfold addHeadRing; rfl

theorem addHead_head (r : RingState) :
    (addHeadRing r).head = (r.head + (r.maxSize - 1)) % r.maxSize := by
  unfold addHeadRing; rfl

theorem addHead_tail (r : RingState) : (addHeadRing r).tail = r.tail := by
  unfold addHeadRing; rfl

theorem addHead_physLen (r : RingState) : (addHeadRing r).physLen = r.physLen := by
  unfold addHeadRing; rfl

theorem addHead_slots (r : RingState) (i : Nat) :
    (addHeadRing r).slots i =
      if i = (r.head + (r.maxSize - 1)) % r.maxSize then some BlockState.mkDefault
      else r.slots i := by
  unfold addHeadRing; rfl

theorem slotIdx_addHead_zero {r : RingState} (hM : 0 < r.maxSize) :
    slotIdx (addHeadRing r) 0 = (r.head + (r.maxSize - 1)) % r.maxSize := by
  unfold slotIdx
  rw [addHead_head, addHead_maxSize, Nat.add_zero,
    Nat.mod_mod_of_dvd _ (dvd_refl r.maxSize)]

theorem slotIdx_addHead_succ {r : RingState} (hM : 0 < r.maxSize) (j : Nat) :
    slotIdx (addHeadRing r) (j + 1) = slotIdx r j := by
  unfold slotIdx
  rw [addHead_head, addHead_maxSize, Nat.mod_add_mod,
    show r.head + (r.maxSize - 1) + (j + 1) = r.head + j + r.maxSize by omega,
    Nat.add_mod_right]

/-- On a coherent ring `AddHeadDataBlock` succeeds and produces
`addHeadRing`. -/
theorem addHead_eq {r : RingState} {n : Nat} (hInv : RingInv r n) :
    r.addHeadDataBlock = some (addHeadRing r) := by
  have hM := hInv.maxPos
  have hMW := hInv.maxLt
  have hH : (if r.head = 0 then wDec r.maxSize else wDec r.head) =
      (r.head + (r.maxSize - 1)) % r.maxSize := by
    by_cases hh0 : r.head = 0
    · rw [if_pos hh0, hh0, wDec_small hM hMW, Nat.zero_add,
        Nat.mod_eq_of_lt (by omega)]
    · have hhlt := hInv.headLt
      rw [if_neg hh0, wDec_small (by omega) (by omega),
        show r.head + (r.maxSize - 1) = (r.head - 1) + r.maxSize by omega,
        Nat.add_mod_right, Nat.mod_eq_of_lt (by omega)]
  unfold RingState.addHeadDataBlock
  simp only [hH]
  have hphys : ((r.head + (r.maxSize - 1)) % r.maxSize) <
      ({ r with head := (r.head + (r.maxSize - 1)) % r.maxSize } : RingState).physLen := by
    show (r.head + (r.maxSize - 1)) % r.maxSize < r.physLen
    rw [hInv.phys]
    exact Nat.mod_lt _ hM
  rw [writeSlot_of_lt hphys, Option.map_some']
  simp only [setSlot_size]
  unfold addHeadRing RingState.setSlot
  rfl

/-- The fresh head slot is immediately readable. -/
theorem getHead_addHead {r : RingState} {n : Nat} (hInv : RingInv r n) :
    (addHeadRing r).getHeadDataBlock = some BlockState.mkDefault := by
  have hb : (addHeadRing r).head < (addHeadRing r).physLen := by
    rw [addHead_head, addHead_physLen, hInv.phys]
    exact Nat.mod_lt _ hInv.maxPos
  unfold RingState.getHeadDataBlock
  rw [deref_eq_slots hb, addHead_head, addHead_slots, if_pos rfl]

theorem blockIn_addHead_succ {r : RingState} (hM : 0 < r.maxSize) (j : Nat) :
    blockIn (addHeadRing r) (j + 1) =
      if slotIdx r j = (r.head + (r.maxSize - 1)) % r.maxSize
      then some BlockState.mkDefault else blockIn r j := by
  unfold blockIn
  rw [slotIdx_addHead_succ hM, addHead_slots]

/-- After `AddHeadDataBlock` and a push of one element into the fresh head
block, the ring invariant holds again (the old head block must have had
in-block `head_ = 0` and at least one element, which is exactly the
condition under which the deque adds a head block). -/
theorem ringInv_addHeadPushed {r : RingState} {n : Nat} (hInv : RingInv r n)
    (hms : r.size < r.maxSize)
    (hpos : ∀ b, blockIn r 0 = some b → 1 ≤ b.size ∧ b.head = 0)
    {b2 : BlockState} (hb2s : b2.size = 1) (hb2h : b2.head = kBlockSize - 1)
    (hb2t : b2.tail = kBlockSize - 1) :
    RingInv ((addHeadRing r).setSlot (addHeadRing r).head (some b2)) (wInc n) := by
  have hM := hInv.maxPos
  have hMW := hInv.maxLt
  have hmpos := hInv.sizePos
  have hmle := hInv.sizeLe
  have hk : kBlockSize = 128 := rfl
  have hws : wInc r.size = r.size + 1 := wInc_small (by omega)
  have hsH : slotIdx (addHeadRing r) 0 = (r.head + (r.maxSize - 1)) % r.maxSize :=
    slotIdx_addHead_zero hM
  have hsH2 : slotIdx r (r.maxSize - 1) = (r.head + (r.maxSize - 1)) % r.maxSize := by
    unfold slotIdx
    rfl
  refine { maxPow := ?_, maxLt := ?_, phys := ?_, headLt := ?_,
           sizePos := ?_, sizeLe := ?_, tailEq := ?_,
           popu := ?_, unpop := ?_, shapes := ?_, count := ?_ }
  · rw [setSlot_maxSize, addHead_maxSize]; exact hInv.maxPow
  · rw [setSlot_maxSize, addHead_maxSize]; exact hInv.maxLt
  · rw [setSlot_physLen, addHead_physLen, setSlot_maxSize, addHead_maxSize]
    exact hInv.phys
  · rw [setSlot_head, addHead_head, setSlot_maxSize, addHead_maxSize]
    exact Nat.mod_lt _ hM
  · rw [setSlot_size, addHead_size, hws]; omega
  · rw [setSlot_size, addHead_size, hws, setSlot_maxSize, addHead_maxSize]; omega
  · rw [setSlot_tail, addHead_tail, setSlot_head, addHead_head, setSlot_size,
      addHead_size, setSlot_maxSize, addHead_maxSize, hws, Nat.add_sub_cancel,
      Nat.mod_add_mod,
      show r.head + (r.maxSize - 1) + r.size = r.head + (r.size - 1) + r.maxSize
        by omega,
      Nat.add_mod_right]
    exact hInv.tailEq
  · intro j hj
    rw [setSlot_size, addHead_size, hws] at hj
    cases j with
    | zero =>
      rw [blockIn_setSlot, addHead_head, hsH, if_pos rfl]
      rfl
    | succ j' =>
      have hne1 : slotIdx r j' ≠ (r.head + (r.maxSize - 1)) % r.maxSize := by
        rw [← hsH2]; exact slotIdx_ne (by omega) (by omega) (by omega)
      rw [blockIn_setSlot, addHead_head, slotIdx_addHead_succ hM, if_neg hne1,
        blockIn_addHead_succ hM, if_neg hne1]
      exact hInv.popu j' (by omega)
  · intro i hi hni
    rw [setSlot_maxSize, addHead_maxSize] at hi
    rw [setSlot_slots, addHead_head, addHead_slots]
    have hniH : i ≠ (r.head + (r.maxSize - 1)) % r.maxSize := by
      have := hni 0 (by rw [setSlot_size, addHead_size, hws]; omega)
      rw [slotIdx_setSlot, hsH] at this
      exact this
    rw [if_neg hniH, if_neg hniH]
    apply hInv.unpop i hi
    intro j hjlt
    have := hni (j + 1) (by rw [setSlot_size, addHead_size, hws]; omega)
    rw [slotIdx_setSlot, slotIdx_addHead_succ hM] at this
    exact this
  · intro j hj b hb
    rw [setSlot_size, addHead_size, hws] at hj ⊢
    cases j with
    | zero =>
      rw [blockIn_setSlot, addHead_head, hsH, if_pos rfl] at hb
      simp only [Option.some.injEq] at hb
      subst hb
      refine ⟨⟨?_, ?_, ?_⟩, ?_, ?_, ?_⟩
      · rw [hb2s]; omega
      · rw [hb2h, hb2s]; omega
      · rw [hb2s, hb2h, hb2t]
        rw [if_neg (by omega)]
        omega
      · intro h2 h0
        rw [hb2h, hb2s]
        omega
      · intro h2 h0
        exfalso
        omega
      · intro h2 h0 h3
        omega
    | succ j' =>
      have hne1 : slotIdx r j' ≠ (r.head + (r.maxSize - 1)) % r.maxSize := by
        rw [← hsH2]; exact slotIdx_ne (by omega) (by omega) (by omega)
      rw [blockIn_setSlot, addHead_head, slotIdx_addHead_succ hM, if_neg hne1,
        blockIn_addHead_succ hM, if_neg hne1] at hb
      obtain ⟨hBS, hhd, htlr, hmid⟩ := hInv.shapes j' (by omega) b hb
      refine ⟨hBS, ?_, ?_, ?_⟩
      · intro h2 h0
        omega
      · intro h2 h0
        by_cases hm2 : 2 ≤ r.size
        · exact htlr hm2 (by omega)
        · have hj0 : j' = 0 := by omega
          rw [hj0] at hb
          have hp := hpos b hb
          exact ⟨hp.2, fun hz => absurd hz (by omega)⟩
      · intro h2 h0 h3
        by_cases hj0 : j' = 0
        · subst hj0
          have hp := hpos b hb
          have hm2 : 2 ≤ r.size := by omega
          have := hhd hm2 rfl
          omega
        · exact hmid (by omega) (by omega) (by omega)
  · have hSa0 : sizeAt ((addHeadRing r).setSlot (addHeadRing r).head (some b2)) 0 =
        1 := by
      unfold sizeAt
      rw [blockIn_setSlot, addHead_head, hsH, if_pos rfl]
      simp only [Option.map_some', Option.getD_some]
      exact hb2s
    have hSas : ∀ j, j < r.size →
        sizeAt ((addHeadRing r).setSlot (addHeadRing r).head (some b2)) (j + 1) =
          sizeAt r j := by
      intro j hjr
      have hne1 : slotIdx r j ≠ (r.head + (r.maxSize - 1)) % r.maxSize := by
        rw [← hsH2]; exact slotIdx_ne (by omega) (by omega) (by omega)
      unfold sizeAt
      rw [blockIn_setSlot, addHead_head, slotIdx_addHead_succ hM, if_neg hne1,
        blockIn_addHead_succ hM, if_neg hne1]
    have hsplit : ∑ j ∈ Finset.range (r.size + 1),
        sizeAt ((addHeadRing r).setSlot (addHeadRing r).head (some b2)) j =
        (∑ j ∈ Finset.range r.size,
          sizeAt ((addHeadRing r).setSlot (addHeadRing r).head (some b2)) (j + 1)) +
        sizeAt ((addHeadRing r).setSlot (addHeadRing r).head (some b2)) 0 :=
      Finset.sum_range_succ' _ _
    have hSF : sumSizes ((addHeadRing r).setSlot (addHeadRing r).head (some b2)) =
        sumSizes r + 1 := by
      unfold sumSizes
      rw [setSlot_size, addHead_size, hws, hsplit, hSa0]
      have hc : ∑ j ∈ Finset.range r.size,
          sizeAt ((addHeadRing r).setSlot (addHeadRing r).head (some b2)) (j + 1) =
          ∑ j ∈ Finset.range r.size, sizeAt r j :=
        Finset.sum_congr rfl fun j hj => hSas j (Finset.mem_range.mp hj)
      rw [hc]
    show (n + 1) % W =
      sumSizes ((addHeadRing r).setSlot (addHeadRing r).head (some b2)) % W
    rw [hSF, hInv.count, Nat.mod_add_mod]

/-- The ring state `ExpandBuffer` produces on a coherent ring: same blocks
relocated to slots `0..size_-1`, `head_ = 0`, `tail_ = size_ - 1`, capacity
doubled. -/
def expandRing (r : RingState) : RingState :=
  ⟨r.size, r.maxSize * 2, 0, wDec r.size,
   fun i => if i ≤ r.size - 1 then r.slots ((r.head + i) % r.maxSize) else none,
   r.maxSize * 2⟩

theorem exp_size (r : RingState) : (expandRing r).size = r.size := by
  unfold expandRing; rfl

theorem exp_maxSize (r : RingState) : (expandRing r).maxSize = r.maxSize * 2 := by
  unfold expandRing; rfl

theorem exp_head (r : RingState) : (expandRing r).head = 0 := by
  unfold expandRing; rfl

theorem exp_tail (r : RingState) : (expandRing r).tail = wDec r.size := by
  unfold expandRing; rfl

theorem exp_physLen (r : RingState) : (expandRing r).physLen = r.maxSize * 2 := by
  unfold expandRing; rfl

theorem exp_slots (r : RingState) (i : Nat) :
    (expandRing r).slots i =
      if i ≤ r.size - 1 then r.slots ((r.head + i) % r.maxSize) else none := by
  unfold expandRing; rfl

theorem slotIdx_expand (r : RingState) (j : Nat) :
    slotIdx (expandRing r) j = j % (r.maxSize * 2) := by
  unfold slotIdx
  rw [exp_head, exp_maxSize, Nat.zero_add]

theorem blockIn_expand {r : RingState} (hM : 0 < r.maxSize)
    (hmle : r.size ≤ r.maxSize) {j : Nat} (hj : j < r.size) :
    blockIn (expandRing r) j = blockIn r j := by
  unfold blockIn
  rw [slotIdx_expand, Nat.mod_eq_of_lt (by omega), exp_slots, if_pos (by omega)]
  rfl

/-- The ring distance from `head_` to `tail_` is `size_ - 1` on a coherent
ring. -/
theorem ringDist_eq {r : RingState} {n : Nat} (hInv : RingInv r n) :
    (r.tail + r.maxSize - r.head) % r.maxSize = r.size - 1 := by
  have hM := hInv.maxPos
  have hmpos := hInv.sizePos
  have hmle := hInv.sizeLe
  have hhlt := hInv.headLt
  rw [hInv.tailEq]
  have hdm := Nat.div_add_mod (r.head + (r.size - 1)) r.maxSize
  have hAlt : (r.head + (r.size - 1)) % r.maxSize < r.maxSize := Nat.mod_lt _ hM
  have hqle : (r.head + (r.size - 1)) / r.maxSize ≤ 1 := by
    by_contra hq
    have h2q : r.maxSize * 2 ≤
        r.maxSize * ((r.head + (r.size - 1)) / r.maxSize) :=
      Nat.mul_le_mul_left _ (by omega)
    omega
  have hq01 := Nat.le_one_iff_eq_zero_or_eq_one.mp hqle
  rcases hq01 with h0 | h1
  · rw [h0] at hdm
    have he : (r.head + (r.size - 1)) % r.maxSize + r.maxSize - r.head =
        (r.size - 1) + r.maxSize := by omega
    rw [he, Nat.add_mod_right, Nat.mod_eq_of_lt (by omega)]
  · rw [h1] at hdm
    have he : (r.head + (r.size - 1)) % r.maxSize + r.maxSize - r.head =
        r.size - 1 := by omega
    rw [he, Nat.mod_eq_of_lt (by omega)]

/-- On a coherent ring whose doubled capacity still fits in `size_t`,
`ExpandBuffer` succeeds, produces `expandRing`, and preserves the invariant
and every populated block. -/
theorem expand_spec {r : RingState} {n : Nat} (hInv : RingInv r n)
    (hbig : r.maxSize * 2 < W) :
    r.expandBuffer = some (expandRing r) ∧ RingInv (expandRing r) n := by
  have hM := hInv.maxPos
  have hmpos := hInv.sizePos
  have hmle := hInv.sizeLe
  have hwd : wDec r.size = r.size - 1 := wDec_small hmpos (by omega)
  have hns : (r.maxSize * 2) % W = r.maxSize * 2 := Nat.mod_eq_of_lt hbig
  constructor
  · unfold RingState.expandBuffer
    simp only [ringDist_eq hInv, hns]
    rw [if_pos (by omega : r.size - 1 < r.maxSize * 2)]
    unfold expandRing
    rfl
  · refine { maxPow := ?_, maxLt := ?_, phys := ?_, headLt := ?_,
             sizePos := ?_, sizeLe := ?_, tailEq := ?_,
             popu := ?_, unpop := ?_, shapes := ?_, count := ?_ }
    · obtain ⟨e, he⟩ := hInv.maxPow
      refine ⟨e + 1, ?_⟩
      rw [exp_maxSize, he, show 4 + (e + 1) = (4 + e) + 1 by omega, pow_succ]
    · rw [exp_maxSize]; exact hbig
    · rw [exp_physLen, exp_maxSize]
    · rw [exp_head, exp_maxSize]; omega
    · rw [exp_size]; exact hmpos
    · rw [exp_size, exp_maxSize]; omega
    · rw [exp_tail, exp_head, exp_size, exp_maxSize, hwd, Nat.zero_add,
        Nat.mod_eq_of_lt (by omega)]
    · intro j hj
      rw [exp_size] at hj
      rw [blockIn_expand hM hmle hj]
      exact hInv.popu j hj
    · intro i hi hni
      rw [exp_maxSize] at hi
      rw [exp_slots]
      by_cases hile : i ≤ r.size - 1
      · exfalso
        have := hni i (by rw [exp_size]; omega)
        rw [slotIdx_expand, Nat.mod_eq_of_lt (by omega)] at this
        exact this rfl
      · rw [if_neg hile]
    · intro j hj b hb
      rw [exp_size] at hj ⊢
      rw [blockIn_expand hM hmle hj] at hb
      exact hInv.shapes j hj b hb
    · have hsame : sumSizes (expandRing r) = sumSizes r := by
        unfold sumSizes
        rw [exp_size]
        apply Finset.sum_congr rfl
        intro j hjm
        unfold sizeAt
        rw [blockIn_expand hM hmle (Finset.mem_range.mp hjm)]
      rw [hsame]
      exact hInv.count

/-- When the capacity is already `2^63`, doubling wraps to 0 and
`ExpandBuffer` fails its relocation bound. -/
theorem expand_none {r : RingState} {n : Nat} (hInv : RingInv r n)
    (hbig : ¬ r.maxSize * 2 < W) :
    r.expandBuffer = none := by
  obtain ⟨e, he⟩ := hInv.maxPow
  have hlt := hInv.maxLt
  have he63 : 4 + e ≤ 63 := by
    by_contra hx
    have : (2:Nat) ^ 64 ≤ 2 ^ (4 + e) := Nat.pow_le_pow_right (by omega) (by omega)
    have hW : W = 2 ^ 64 := rfl
    omega
  have heq : r.maxSize * 2 = 2 ^ (4 + e + 1) := by
    rw [he, pow_succ]
  have hW : W = 2 ^ 64 := rfl
  have hge : 2 ^ 64 ≤ 2 ^ (4 + e + 1) := by
    rw [← hW, ← heq]
    omega
  have he64 : 4 + e + 1 = 64 := by
    by_contra hx
    have : 4 + e + 1 ≤ 63 := by omega
    have : (2:Nat) ^ (4 + e + 1) ≤ 2 ^ 63 := Nat.pow_le_pow_right (by omega) this
    have h63 : (2:Nat) ^ 63 < 2 ^ 64 := Nat.pow_lt_pow_right (by omega) (by omega)
    omega
  have h0 : (r.maxSize * 2) % W = 0 := by
    rw [heq, he64, hW, Nat.mod_self]
  unfold RingState.expandBuffer
  simp only [h0]
  rw [if_neg (by omega)]

/-- The body of `Deque::PushBack` (after the expansion guard) preserves the
ring invariant whenever the ring is not at capacity or the tail block is
not right-closed. -/
theorem inv_pushBackRest {r : RingState} {n : Nat} (v : Int) (hInv : RingInv r n)
    (hsafe : r.size < r.maxSize ∨
      ∀ b, blockIn r (r.size - 1) = some b → b.head + b.size ≠ kBlockSize)
    {r4 : RingState} (h : Deque.pushBackRest v r = some r4) :
    RingInv r4 (wInc n) := by
  have hM := hInv.maxPos
  have hMW := hInv.maxLt
  have hk : kBlockSize = 128 := rfl
  have hkW : kBlockSize < W := kBS_lt_W
  have hmpos := hInv.sizePos
  have hmle := hInv.sizeLe
  obtain ⟨bb, hbb⟩ := blockIn_ex hInv (show r.size - 1 < r.size by omega)
  have hs : r.slots r.tail = some bb := by
    rw [hInv.tail_slotIdx]; exact hbb
  have hlt : r.tail < r.physLen := by
    rw [hInv.tail_slotIdx, hInv.phys]; exact slotIdx_lt hM _
  have hgt := getTailDataBlock_of_some hlt hs
  obtain ⟨⟨hsz, hbd, htl⟩, hhd, htlr, hmid⟩ :=
    hInv.shapes _ (show r.size - 1 < r.size by omega) bb hbb
  have hbbsum : bb.size ≤ sumSizes r := by
    have := sizeAt_le_sum (show r.size - 1 < r.size by omega)
    rw [sizeAt_eq hbb] at this
    exact this
  have hdf : r.isTailDataBlockFull = some (BlockState.isFull kBlockSize bb) := by
    unfold RingState.isTailDataBlockFull
    rw [hInv.deref_tail, hbb]
    rfl
  have htu : r.tailIsUsedHead = some (BlockState.isRightClose kBlockSize bb) := by
    unfold RingState.tailIsUsedHead
    rw [hInv.deref_tail, hbb]
    rfl
  simp only [Deque.pushBackRest, Option.bind_eq_bind', hdf, Option.some_bind] at h
  by_cases hrc : bb.head + bb.size = kBlockSize
  · -- the tail block is right-closed: a fresh tail block is added and pushed
    have hms : r.size < r.maxSize := by
      rcases hsafe with h1 | h2
      · exact h1
      · exact absurd hrc (h2 bb hbb)
    by_cases hbf : bb.size = kBlockSize
    · rw [show BlockState.isFull kBlockSize bb = true from blockIsFull_iff.mpr hbf,
        if_pos rfl] at h
      simp only [Option.pure_def, Option.some_bind] at h
      simp only [if_true] at h
      rw [addTail_eq hInv] at h
      simp only [Option.some_bind] at h
      rw [getTail_addTail hInv] at h
      simp only [Option.some_bind] at h
      obtain ⟨b2, hpb, hb2s, hb2h, hb2t⟩ :=
        pushBack_block v bshape_mkDefault
          (by rw [mkDefault_head, mkDefault_size]; decide)
      rw [hpb] at h
      simp only [Option.some_bind] at h
      have hlt3 : (addTailRing r).tail < (addTailRing r).physLen := by
        rw [addTail_tail, addTail_physLen, hInv.phys]
        exact Nat.mod_lt _ hM
      rw [writeSlot_of_lt hlt3] at h
      simp only [Option.some.injEq] at h
      subst h
      refine ringInv_addTailPushed hInv hms ?_ ?_ ?_ ?_
      · intro b hbx
        rw [hbb] at hbx
        simp only [Option.some.injEq] at hbx
        rw [← hbx]
        exact hrc
      · rw [hb2s, mkDefault_size]
      · rw [hb2h, mkDefault_head]
      · rw [hb2t, mkDefault_head, mkDefault_size]
    · rw [show BlockState.isFull kBlockSize bb = false from
        (by simp only [BlockState.isFull]; exact beq_eq_false_iff_ne.mpr hbf),
        if_neg Bool.false_ne_true, htu] at h
      simp only [Option.some_bind] at h
      have hrct : BlockState.isRightClose kBlockSize bb = true := by
        simp only [BlockState.isRightClose]
        rw [Nat.mod_eq_of_lt (by omega)]
        simp only [decide_eq_true_eq]
        omega
      rw [hrct, if_pos rfl, addTail_eq hInv] at h
      simp only [Option.some_bind] at h
      rw [getTail_addTail hInv] at h
      simp only [Option.some_bind] at h
      obtain ⟨b2, hpb, hb2s, hb2h, hb2t⟩ :=
        pushBack_block v bshape_mkDefault
          (by rw [mkDefault_head, mkDefault_size]; decide)
      rw [hpb] at h
      simp only [Option.some_bind] at h
      have hlt3 : (addTailRing r).tail < (addTailRing r).physLen := by
        rw [addTail_tail, addTail_physLen, hInv.phys]
        exact Nat.mod_lt _ hM
      rw [writeSlot_of_lt hlt3] at h
      simp only [Option.some.injEq] at h
      subst h
      refine ringInv_addTailPushed hInv hms ?_ ?_ ?_ ?_
      · intro b hbx
        rw [hbb] at hbx
        simp only [Option.some.injEq] at hbx
        rw [← hbx]
        exact hrc
      · rw [hb2s, mkDefault_size]
      · rw [hb2h, mkDefault_head]
      · rw [hb2t, mkDefault_head, mkDefault_size]
  · -- the tail block has room: the element is pushed in place
    have hbf : ¬ bb.size = kBlockSize := by omega
    rw [show BlockState.isFull kBlockSize bb = false from
      (by simp only [BlockState.isFull]; exact beq_eq_false_iff_ne.mpr hbf),
      if_neg Bool.false_ne_true, htu] at h
    simp only [Option.some_bind] at h
    have hrcf : BlockState.isRightClose kBlockSize bb = false := by
      simp only [BlockState.isRightClose]
      rw [Nat.mod_eq_of_lt (by omega)]
      simp only [decide_eq_false_iff_not]
      omega
    rw [hrcf, if_neg Bool.false_ne_true] at h
    simp only [Option.pure_def, Option.some_bind] at h
    rw [hgt] at h
    simp only [Option.some_bind] at h
    obtain ⟨b2, hpb, hb2s, hb2h, hb2t⟩ :=
      pushBack_block v ⟨hsz, hbd, htl⟩ (by omega)
    rw [hpb] at h
    simp only [Option.some_bind] at h
    rw [writeSlot_of_lt hlt] at h
    simp only [Option.some.injEq] at h
    subst h
    refine ringInv_replaceTail hInv hbb ?_ ?_ hbbsum
    · refine ⟨⟨?_, ?_, ?_⟩, ?_, ?_, ?_⟩
      · rw [hb2s]; omega
      · rw [hb2h, hb2s]; omega
      · rw [hb2s, hb2h, hb2t, if_neg (by omega)]
        omega
      · intro h2 h0
        omega
      · intro h2 h0
        obtain ⟨hbh0, _⟩ := htlr h2 rfl
        refine ⟨by rw [hb2h]; exact hbh0, fun hz => ?_⟩
        rw [hb2s] at hz
        omega
      · intro h2 h0 h3
        omega
    · rw [hb2s]
      show (n + 1) % W = (sumSizes r + (bb.size + 1) - bb.size) % W
      rw [hInv.count, Nat.mod_add_mod,
        show sumSizes r + (bb.size + 1) - bb.size = sumSizes r + 1 by omega]

/-- `Deque::PushBack` preserves the invariant. -/
theorem inv_pushBack {d d2 : Deque} (v : Int) (hInv : DequeInv d)
    (h : Deque.pushBack v d = some d2) : DequeInv d2 := by
  have hI : RingInv d.dataProxy d.size := hInv
  have hM := hI.maxPos
  have hk : kBlockSize = 128 := rfl
  have hmpos := hI.sizePos
  have hmle := hI.sizeLe
  obtain ⟨bb, hbb⟩ := blockIn_ex hI (show d.dataProxy.size - 1 < d.dataProxy.size
    by omega)
  have hdf : d.dataProxy.isTailDataBlockFull =
      some (BlockState.isFull kBlockSize bb) := by
    unfold RingState.isTailDataBlockFull
    rw [hI.deref_tail, hbb]
    rfl
  simp only [Deque.pushBack, Option.bind_eq_bind'] at h
  by_cases hfull : d.dataProxy.size = d.dataProxy.maxSize
  · have hisf : d.dataProxy.isFull = true := ringIsFull_iff.mpr hfull
    rw [hisf, if_pos rfl, hdf] at h
    simp only [Option.some_bind] at h
    by_cases hbf : bb.size = kBlockSize
    · rw [show BlockState.isFull kBlockSize bb = true from blockIsFull_iff.mpr hbf,
        if_pos rfl] at h
      by_cases hbig : d.dataProxy.maxSize * 2 < W
      · obtain ⟨hee, hEI⟩ := expand_spec hI hbig
        rw [hee] at h
        simp only [Option.some_bind] at h
        cases hre : Deque.pushBackRest v (expandRing d.dataProxy) with
        | none =>
          rw [hre, Option.none_bind] at h
          exact Option.noConfusion h
        | some r4 =>
          rw [hre] at h
          simp only [Option.some_bind, Option.pure_def, Option.some.injEq] at h
          subst h
          exact inv_pushBackRest v hEI
            (Or.inl (by rw [exp_size, exp_maxSize]; omega)) hre
      · rw [expand_none hI hbig, Option.none_bind] at h
        exact Option.noConfusion h
    · rw [show BlockState.isFull kBlockSize bb = false from
        (by simp only [BlockState.isFull]; exact beq_eq_false_iff_ne.mpr hbf),
        if_neg Bool.false_ne_true] at h
      simp only [Option.pure_def, Option.some_bind] at h
      cases hre : Deque.pushBackRest v d.dataProxy with
      | none =>
        rw [hre, Option.none_bind] at h
        exact Option.noConfusion h
      | some r4 =>
        rw [hre] at h
        simp only [Option.some_bind, Option.pure_def, Option.some.injEq] at h
        subst h
        refine inv_pushBackRest v hI (Or.inr ?_) hre
        intro b hbx
        rw [hbb] at hbx
        simp only [Option.some.injEq] at hbx
        rw [← hbx]
        obtain ⟨⟨hsz, hbd, htl⟩, hhd, htlr, hmid⟩ :=
          hI.shapes _ (show d.dataProxy.size - 1 < d.dataProxy.size by omega) bb hbb
        have hm2 : 2 ≤ d.dataProxy.size := by
          have h16 : 16 ≤ d.dataProxy.maxSize := by
            obtain ⟨e, he⟩ := hI.maxPow
            rw [he]
            calc 16 = 2 ^ 4 := by decide
            _ ≤ 2 ^ (4 + e) := Nat.pow_le_pow_right (by omega) (by omega)
          omega
        obtain ⟨hbh0, _⟩ := htlr hm2 rfl
        omega
  · have hisf : d.dataProxy.isFull = false := by
      simp only [RingState.isFull]; exact beq_eq_false_iff_ne.mpr hfull
    rw [hisf, if_neg Bool.false_ne_true] at h
    simp only [Option.pure_def, Option.some_bind] at h
    cases hre : Deque.pushBackRest v d.dataProxy with
    | none =>
      rw [hre, Option.none_bind] at h
      exact Option.noConfusion h
    | some r4 =>
      rw [hre] at h
      simp only [Option.some_bind, Option.pure_def, Option.some.injEq] at h
      subst h
      exact inv_pushBackRest v hI (Or.inl (by omega)) hre

/-- The body of `Deque::PushFront` (after the expansion guard) preserves
the ring invariant whenever the ring is not at capacity or the head
block's window does not start at array index 0. -/
theorem inv_pushFrontRest {r : RingState} {n : Nat} (v : Int) (hInv : RingInv r n)
    (hsafe : r.size < r.maxSize ∨ ∀ b, blockIn r 0 = some b → b.head ≠ 0)
    {r4 : RingState} (h : Deque.pushFrontRest v r = some r4) :
    RingInv r4 (wInc n) := by
  have hM := hInv.maxPos
  have hMW := hInv.maxLt
  have hk : kBlockSize = 128 := rfl
  have hkW : kBlockSize < W := kBS_lt_W
  have hmpos := hInv.sizePos
  have hmle := hInv.sizeLe
  obtain ⟨bh, hbh⟩ := blockIn_ex hInv (show 0 < r.size by omega)
  have hgh : r.getHeadDataBlock = some bh := by
    unfold RingState.getHeadDataBlock
    rw [hInv.deref_head]
    exact hbh
  have hlt : r.head < r.physLen := hInv.head_physLt
  obtain ⟨⟨hsz, hbd, htl⟩, hhd, htlr, hmid⟩ :=
    hInv.shapes 0 (show 0 < r.size by omega) bh hbh
  have hbhsum : bh.size ≤ sumSizes r := by
    have := sizeAt_le_sum (show 0 < r.size by omega)
    rw [sizeAt_eq hbh] at this
    exact this
  have hsns : r.isHeadStartNotShifted = some (!bh.isHeadShifted) := by
    unfold RingState.isHeadStartNotShifted
    rw [hInv.deref_head, hbh]
    rfl
  simp only [Deque.pushFrontRest, Option.bind_eq_bind'] at h
  by_cases hm1 : r.size = 1
  · by_cases hrh : r.head = 0
    · have hie : r.isEmpty = some bh.isEmpty := by
        unfold RingState.isEmpty
        rw [if_pos hm1]
        have hd0 : r.deref 0 = some bh := by
          rw [← hrh, hInv.deref_head]
          exact hbh
        rw [hd0]
        rfl
      rw [hie] at h
      simp only [Option.some_bind] at h
      by_cases hbs0 : bh.size = 0
      · -- the sole block is empty: no new block, push straight into it
        rw [show bh.isEmpty = true from blockIsEmpty_iff.mpr hbs0, if_pos rfl] at h
        simp only [Option.pure_def, Option.some_bind, Bool.false_eq_true,
          if_false] at h
        rw [hgh] at h
        simp only [Option.some_bind] at h
        have hw1 : wInc bh.size = bh.size + 1 := wInc_small (by omega)
        rw [if_pos hbs0] at htl
        rcases htl with ⟨hbh0, hbt0⟩ | ⟨hble2, hbtw⟩
        · obtain ⟨b2, hpb, hb2s, hb2h, hb2t⟩ :=
            pushFront_block_zero v ⟨by omega, hbh0⟩
          rw [hpb] at h
          simp only [Option.some_bind] at h
          rw [writeSlot_of_lt hlt] at h
          simp only [Option.some.injEq] at h
          subst h
          refine ringInv_replaceHead hInv hbh ?_ ?_ hbhsum
          · refine ⟨⟨?_, ?_, ?_⟩, ?_, ?_, ?_⟩
            · rw [hb2s, hw1]; omega
            · rw [hb2h, hb2s, hw1]; omega
            · rw [hb2s, hw1, if_neg (by omega), hb2t, hb2h]
              omega
            · intro h2 h0
              rw [hb2h, hb2s, hw1]
              omega
            · intro h2 h0
              exact absurd h0 (by omega)
            · intro h2 h0 h3
              omega
          · rw [hb2s, hw1]
            show (n + 1) % W = (sumSizes r + (bh.size + 1) - bh.size) % W
            rw [hInv.count, Nat.mod_add_mod,
              show sumSizes r + (bh.size + 1) - bh.size = sumSizes r + 1 by omega]
        · by_cases hbh0 : bh.head = 0
          · -- block emptied by PopBack: head_ underflows and the write crashes
            have hbt : bh.tail = W - 1 := by rw [hbtw, hbh0, wDec_zero]
            rw [pushFront_block_crash v hbh0 (by rw [hbt]; decide),
              Option.none_bind] at h
            exact Option.noConfusion h
          · have h1 : 1 ≤ bh.head := by omega
            obtain ⟨b2, hpb, hb2s, hb2h, hb2t⟩ :=
              pushFront_block_shift v (fun hc => hbh0 hc.2) h1 hble2
            rw [hpb] at h
            simp only [Option.some_bind] at h
            rw [writeSlot_of_lt hlt] at h
            simp only [Option.some.injEq] at h
            subst h
            refine ringInv_replaceHead hInv hbh ?_ ?_ hbhsum
            · refine ⟨⟨?_, ?_, ?_⟩, ?_, ?_, ?_⟩
              · rw [hb2s, hw1]; omega
              · rw [hb2h, hb2s, hw1]; omega
              · rw [hb2s, hw1, if_neg (by omega), hb2t, hb2h, hbtw,
                  wDec_small h1 (by omega)]
                omega
              · intro h2 h0
                exact absurd h2 (by omega)
              · intro h2 h0
                exact absurd h0 (by omega)
              · intro h2 h0 h3
                omega
            · rw [hb2s, hw1]
              show (n + 1) % W = (sumSizes r + (bh.size + 1) - bh.size) % W
              rw [hInv.count, Nat.mod_add_mod,
                show sumSizes r + (bh.size + 1) - bh.size = sumSizes r + 1 by omega]
      · -- the sole block is nonempty
        have hcs : bh.size ≠ 0 ∨ 2 ≤ r.size := Or.inl hbs0
        rw [show bh.isEmpty = false from
          (by simp only [BlockState.isEmpty]; exact beq_eq_false_iff_ne.mpr hbs0),
          if_neg Bool.false_ne_true] at h
        rw [hsns] at h
        simp only [Option.some_bind] at h
        by_cases hbh0 : bh.head = 0
        · have hshift : bh.isHeadShifted = false := by
            simp only [BlockState.isHeadShifted]
            rw [hbh0]
            decide
          rw [hshift, show (!false) = true from rfl, if_pos rfl] at h
          have hms : r.size < r.maxSize := by
            rcases hsafe with hx | hx
            · exact hx
            · exact absurd hbh0 (hx bh hbh)
          rw [addHead_eq hInv] at h
          simp only [Option.some_bind] at h
          rw [getHead_addHead hInv] at h
          simp only [Option.some_bind] at h
          obtain ⟨b2, hpb, hb2s, hb2h, hb2t⟩ :=
            pushFront_block_zero v ⟨by rw [mkDefault_head, mkDefault_tail],
              mkDefault_head⟩
          rw [hpb] at h
          simp only [Option.some_bind] at h
          have hlt3 : (addHeadRing r).head < (addHeadRing r).physLen := by
            rw [addHead_head, addHead_physLen, hInv.phys]
            exact Nat.mod_lt _ hM
          rw [writeSlot_of_lt hlt3] at h
          simp only [Option.some.injEq] at h
          subst h
          refine ringInv_addHeadPushed hInv hms ?_ ?_ hb2h hb2t
          · intro b hbx
            rw [hbh] at hbx
            simp only [Option.some.injEq] at hbx
            rw [← hbx]
            refine ⟨?_, hbh0⟩
            rcases hcs with hns | h2
            · omega
            · have := hhd h2 rfl
              omega
          · rw [hb2s, mkDefault_size, show wInc 0 = 1 from rfl]
        · have hshift : bh.isHeadShifted = true := by
            simp only [BlockState.isHeadShifted]
            exact bne_iff_ne.mpr hbh0
          rw [hshift, if_neg (by decide : ¬((!true) = true))] at h
          simp only [Option.pure_def, Option.some_bind] at h
          rw [hgh] at h
          simp only [Option.some_bind] at h
          have h1 : 1 ≤ bh.head := by omega
          have h2 : bh.head ≤ kBlockSize := by
            by_cases hz : bh.size = 0
            · rw [if_pos hz] at htl
              rcases htl with ⟨h0, _⟩ | ⟨hle, _⟩
              · omega
              · exact hle
            · omega
          have htv : bh.tail = bh.head + bh.size - 1 := by
            by_cases hz : bh.size = 0
            · rw [if_pos hz] at htl
              rcases htl with ⟨h0, _⟩ | ⟨hle, htw⟩
              · omega
              · rw [htw, wDec_small h1 (by omega)]
                omega
            · rw [if_neg hz] at htl
              exact htl
          have hsle : bh.size + 1 ≤ kBlockSize := by
            by_cases hfull : bh.size = kBlockSize
            · exfalso
              exact hbh0 (by omega)
            · omega
          obtain ⟨b2, hpb, hb2s, hb2h, hb2t⟩ :=
            pushFront_block_shift v (fun hc => hbh0 hc.2) h1 h2
          have hw1 : wInc bh.size = bh.size + 1 := wInc_small (by omega)
          rw [hpb] at h
          simp only [Option.some_bind] at h
          rw [writeSlot_of_lt hlt] at h
          simp only [Option.some.injEq] at h
          subst h
          refine ringInv_replaceHead hInv hbh ?_ ?_ hbhsum
          · refine ⟨⟨?_, ?_, ?_⟩, ?_, ?_, ?_⟩
            · rw [hb2s, hw1]; omega
            · rw [hb2h, hb2s, hw1]; omega
            · rw [hb2s, hw1, if_neg (by omega), hb2t, hb2h, htv]
              omega
            · intro h2' h0
              rw [hb2h, hb2s, hw1]
              have := hhd h2' rfl
              omega
            · intro h2' h0
              exact absurd h0 (by omega)
            · intro h2' h0 h3
              omega
          · rw [hb2s, hw1]
            show (n + 1) % W = (sumSizes r + (bh.size + 1) - bh.size) % W
            rw [hInv.count, Nat.mod_add_mod,
              show sumSizes r + (bh.size + 1) - bh.size = sumSizes r + 1 by omega]
    · -- ring size field 1 but head slot not 0: IsEmpty dereferences null slot 0
      have hie : r.isEmpty = none := by
        unfold RingState.isEmpty
        rw [if_pos hm1]
        have hz : r.slots 0 = none := by
          refine hInv.unpop 0 hM ?_
          intro j hj
          have hj0 : j = 0 := by omega
          rw [hj0, hInv.head_slotIdx]
          exact fun hc => hrh hc.symm
        have hd0 : r.deref 0 = none := by
          unfold RingState.deref RingState.readSlot
          rw [if_pos (show 0 < r.physLen by rw [hInv.phys]; exact hM), hz]
        rw [hd0]
        rfl
      rw [hie, Option.none_bind] at h
      exact Option.noConfusion h
  · -- at least two populated slots: IsEmpty short-circuits to false
    have hcs : bh.size ≠ 0 ∨ 2 ≤ r.size := Or.inr (by omega)
    have hie : r.isEmpty = some false := by
      unfold RingState.isEmpty
      rw [if_neg hm1]
    rw [hie] at h
    simp only [Option.some_bind, Bool.false_eq_true, if_false] at h
    rw [hsns] at h
    simp only [Option.some_bind] at h
    by_cases hbh0 : bh.head = 0
    · have hshift : bh.isHeadShifted = false := by
        simp only [BlockState.isHeadShifted]
        rw [hbh0]
        decide
      rw [hshift, show (!false) = true from rfl, if_pos rfl] at h
      have hms : r.size < r.maxSize := by
        rcases hsafe with hx | hx
        · exact hx
        · exact absurd hbh0 (hx bh hbh)
      rw [addHead_eq hInv] at h
      simp only [Option.some_bind] at h
      rw [getHead_addHead hInv] at h
      simp only [Option.some_bind] at h
      obtain ⟨b2, hpb, hb2s, hb2h, hb2t⟩ :=
        pushFront_block_zero v ⟨by rw [mkDefault_head, mkDefault_tail],
          mkDefault_head⟩
      rw [hpb] at h
      simp only [Option.some_bind] at h
      have hlt3 : (addHeadRing r).head < (addHeadRing r).physLen := by
        rw [addHead_head, addHead_physLen, hInv.phys]
        exact Nat.mod_lt _ hM
      rw [writeSlot_of_lt hlt3] at h
      simp only [Option.some.injEq] at h
      subst h
      refine ringInv_addHeadPushed hInv hms ?_ ?_ hb2h hb2t
      · intro b hbx
        rw [hbh] at hbx
        simp only [Option.some.injEq] at hbx
        rw [← hbx]
        refine ⟨?_, hbh0⟩
        rcases hcs with hns | h2
        · omega
        · have := hhd h2 rfl
          omega
      · rw [hb2s, mkDefault_size, show wInc 0 = 1 from rfl]
    · have hshift : bh.isHeadShifted = true := by
        simp only [BlockState.isHeadShifted]
        exact bne_iff_ne.mpr hbh0
      rw [hshift, if_neg (by decide : ¬((!true) = true))] at h
      simp only [Option.pure_def, Option.some_bind] at h
      rw [hgh] at h
      simp only [Option.some_bind] at h
      have h1 : 1 ≤ bh.head := by omega
      have h2 : bh.head ≤ kBlockSize := by
        by_cases hz : bh.size = 0
        · rw [if_pos hz] at htl
          rcases htl with ⟨h0, _⟩ | ⟨hle, _⟩
          · omega
          · exact hle
        · omega
      have htv : bh.tail = bh.head + bh.size - 1 := by
        by_cases hz : bh.size = 0
        · rw [if_pos hz] at htl
          rcases htl with ⟨h0, _⟩ | ⟨hle, htw⟩
          · omega
          · rw [htw, wDec_small h1 (by omega)]
            omega
        · rw [if_neg hz] at htl
          exact htl
      have hsle : bh.size + 1 ≤ kBlockSize := by
        by_cases hfull : bh.size = kBlockSize
        · exfalso
          exact hbh0 (by omega)
        · omega
      obtain ⟨b2, hpb, hb2s, hb2h, hb2t⟩ :=
        pushFront_block_shift v (fun hc => hbh0 hc.2) h1 h2
      have hw1 : wInc bh.size = bh.size + 1 := wInc_small (by omega)
      rw [hpb] at h
      simp only [Option.some_bind] at h
      rw [writeSlot_of_lt hlt] at h
      simp only [Option.some.injEq] at h
      subst h
      refine ringInv_replaceHead hInv hbh ?_ ?_ hbhsum
      · refine ⟨⟨?_, ?_, ?_⟩, ?_, ?_, ?_⟩
        · rw [hb2s, hw1]; omega
        · rw [hb2h, hb2s, hw1]; omega
        · rw [hb2s, hw1, if_neg (by omega), hb2t, hb2h, htv]
          omega
        · intro h2' h0
          rw [hb2h, hb2s, hw1]
          have := hhd h2' rfl
          omega
        · intro h2' h0
          exact absurd h0 (by omega)
        · intro h2' h0 h3
          omega
      · rw [hb2s, hw1]
        show (n + 1) % W = (sumSizes r + (bh.size + 1) - bh.size) % W
        rw [hInv.count, Nat.mod_add_mod,
          show sumSizes r + (bh.size + 1) - bh.size = sumSizes r + 1 by omega]

/-- `Deque::PushFront` preserves the invariant. -/
theorem inv_pushFront {d d2 : Deque} (v : Int) (hInv : DequeInv d)
    (h : Deque.pushFront v d = some d2) : DequeInv d2 := by
  have hI : RingInv d.dataProxy d.size := hInv
  have hM := hI.maxPos
  have hk : kBlockSize = 128 := rfl
  have hmpos := hI.sizePos
  have hmle := hI.sizeLe
  obtain ⟨bh, hbh⟩ := blockIn_ex hI (show 0 < d.dataProxy.size by omega)
  have hdf : d.dataProxy.isHeadDataBlockFull =
      some (BlockState.isFull kBlockSize bh) := by
    unfold RingState.isHeadDataBlockFull
    rw [hI.deref_head, hbh]
    rfl
  simp only [Deque.pushFront, Option.bind_eq_bind'] at h
  by_cases hfull : d.dataProxy.size = d.dataProxy.maxSize
  · have hisf : d.dataProxy.isFull = true := ringIsFull_iff.mpr hfull
    rw [hisf, if_pos rfl, hdf] at h
    simp only [Option.some_bind] at h
    by_cases hbf : bh.size = kBlockSize
    · rw [show BlockState.isFull kBlockSize bh = true from blockIsFull_iff.mpr hbf,
        if_pos rfl] at h
      by_cases hbig : d.dataProxy.maxSize * 2 < W
      · obtain ⟨hee, hEI⟩ := expand_spec hI hbig
        rw [hee] at h
        simp only [Option.some_bind] at h
        cases hre : Deque.pushFrontRest v (expandRing d.dataProxy) with
        | none =>
          rw [hre, Option.none_bind] at h
          exact Option.noConfusion h
        | some r4 =>
          rw [hre] at h
          simp only [Option.some_bind, Option.pure_def, Option.some.injEq] at h
          subst h
          exact inv_pushFrontRest v hEI
            (Or.inl (by rw [exp_size, exp_maxSize]; omega)) hre
      · rw [expand_none hI hbig, Option.none_bind] at h
        exact Option.noConfusion h
    · rw [show BlockState.isFull kBlockSize bh = false from
        (by simp only [BlockState.isFull]; exact beq_eq_false_iff_ne.mpr hbf),
        if_neg Bool.false_ne_true] at h
      simp only [Option.pure_def, Option.some_bind] at h
      cases hre : Deque.pushFrontRest v d.dataProxy with
      | none =>
        rw [hre, Option.none_bind] at h
        exact Option.noConfusion h
      | some r4 =>
        rw [hre] at h
        simp only [Option.some_bind, Option.pure_def, Option.some.injEq] at h
        subst h
        refine inv_pushFrontRest v hI (Or.inr ?_) hre
        intro b hbx
        rw [hbh] at hbx
        simp only [Option.some.injEq] at hbx
        rw [← hbx]
        obtain ⟨⟨hsz, hbd, htl⟩, hhd, htlr, hmid⟩ :=
          hI.shapes 0 (show 0 < d.dataProxy.size by omega) bh hbh
        have hm2 : 2 ≤ d.dataProxy.size := by
          have h16 : 16 ≤ d.dataProxy.maxSize := by
            obtain ⟨e, he⟩ := hI.maxPow
            rw [he]
            calc 16 = 2 ^ 4 := by decide
            _ ≤ 2 ^ (4 + e) := Nat.pow_le_pow_right (by omega) (by omega)
          omega
        have := hhd hm2 rfl
        omega
  · have hisf : d.dataProxy.isFull = false := by
      simp only [RingState.isFull]
      exact beq_eq_false_iff_ne.mpr hfull
    rw [hisf, if_neg Bool.false_ne_true] at h
    simp only [Option.pure_def, Option.some_bind] at h
    cases hre : Deque.pushFrontRest v d.dataProxy with
    | none =>
      rw [hre, Option.none_bind] at h
      exact Option.noConfusion h
    | some r4 =>
      rw [hre] at h
      simp only [Option.some_bind, Option.pure_def, Option.some.injEq] at h
      subst h
      exact inv_pushFrontRest v hI (Or.inl (by omega)) hre

/-- The default-constructed ring satisfies the invariant with count 0. -/
theorem ringInit_inv : RingInv RingState.init 0 := by
  have hs : RingState.init.size = 1 := rfl
  have hm : RingState.init.maxSize = 16 := rfl
  refine { maxPow := ⟨0, rfl⟩, maxLt := by decide, phys := rfl, headLt := by decide,
           sizePos := by decide, sizeLe := by decide, tailEq := rfl,
           popu := ?_, unpop := ?_, shapes := ?_, count := ?_ }
  · intro j hj
    rw [hs] at hj
    have hj0 : j = 0 := by omega
    subst hj0
    rfl
  · intro i hi hne
    have hi0 : i ≠ 0 := by
      intro hc
      refine hne 0 (by rw [hs]; omega) ?_
      rw [hc]
      rfl
    show (if i = 0 then some BlockState.mkDefault else none) = none
    rw [if_neg hi0]
  · intro j hj b hb
    rw [hs] at hj
    have hj0 : j = 0 := by omega
    subst hj0
    have hb0 : some BlockState.mkDefault = some b := by
      rw [← hb]
      rfl
    simp only [Option.some.injEq] at hb0
    rw [← hb0]
    refine ⟨bshape_mkDefault, ?_, ?_, ?_⟩
    · intro h2 h0
      rw [hs] at h2
      omega
    · intro h2 h0
      rw [hs] at h2
      exact absurd h2 (by omega)
    · intro h2 h0 h3
      rw [hs] at h2
      omega
  · show (0 : Nat) = sumSizes RingState.init % W
    have h1 : sumSizes RingState.init = 0 := by
      unfold sumSizes
      rw [hs, Finset.sum_range_one]
      rfl
    rw [h1]
    exact (Nat.zero_mod W).symm

/-- The default-constructed deque satisfies the invariant. -/
theorem dequeInit_inv : DequeInv Deque.dequeInit := ringInit_inv

/-- The contract-respecting fold preserves the invariant. -/
theorem foldl_stepChecked_inv (ops : List DqOp) :
    ∀ od : Option Deque, (∀ d0, od = some d0 → DequeInv d0) →
      ∀ d : Deque, List.foldl stepChecked od ops = some d → DequeInv d := by
  induction ops with
  | nil =>
    intro od hod d h
    exact hod d h
  | cons op rest ih =>
    intro od hod d h
    refine ih (stepChecked od op) ?_ d h
    intro d0 hd0
    cases od with
    | none => exact Option.noConfusion hd0
    | some d1 =>
      have hinv1 : DequeInv d1 := hod d1 rfl
      unfold stepChecked at hd0
      simp only [Option.some_bind] at hd0
      by_cases hc : op.isPop = true ∧ d1.size = 0
      · rw [if_pos hc] at hd0
        exact Option.noConfusion hd0
      · rw [if_neg hc] at hd0
        cases op with
        | pushBack v => exact inv_pushBack v hinv1 hd0
        | pushFront v => exact inv_pushFront v hinv1 hd0
        | popBack => exact inv_popBack hinv1 (fun hz => hc ⟨rfl, hz⟩) hd0
        | popFront => exact inv_popFront hinv1 (fun hz => hc ⟨rfl, hz⟩) hd0

/-- Every state reachable by the public push/pop protocol satisfies the
invariant. -/
theorem reach_inv {d : Deque} (hR : Reach d) : DequeInv d := by
  obtain ⟨ops, hops⟩ := hR
  unfold runChecked at hops
  refine foldl_stepChecked_inv ops (some Deque.dequeInit) ?_ d hops
  intro d0 hd0
  simp only [Option.some.injEq] at hd0
  rw [← hd0]
  exact dequeInit_inv

/-- `popCount` as a `Finset` cardinality. -/
theorem popCount_eq_card (r : RingState) :
    popCount r = ((Finset.range r.physLen).filter
      (fun i => (r.slots i).isSome = true)).card := by
  unfold popCount
  generalize r.physLen = n
  induction n with
  | zero => rfl
  | succ n ih =>
    rw [List.range_succ, List.filter_append, List.length_append, ih,
      Finset.range_succ, Finset.filter_insert]
    by_cases hp : (r.slots n).isSome = true
    · rw [if_pos hp, Finset.card_insert_of_not_mem (fun hmem =>
        absurd (Finset.mem_range.mp (Finset.mem_filter.mp hmem).1) (by omega))]
      have h1 : List.filter (fun i => (r.slots i).isSome) [n] = [n] := by
        simp [hp]
      rw [h1]
      rfl
    · rw [if_neg hp]
      have h1 : List.filter (fun i => (r.slots i).isSome) [n] = [] := by
        simp [hp]
      rw [h1]
      rfl

/-- Under the invariant, the number of populated slots equals the ring's
`size_` field. -/
theorem ringInv_popCount {r : RingState} {n : Nat} (hInv : RingInv r n) :
    popCount r = r.size := by
  have hM := hInv.maxPos
  rw [popCount_eq_card]
  have hcard : ((Finset.range r.physLen).filter
      (fun i => (r.slots i).isSome = true)).card = (Finset.range r.size).card := by
    symm
    refine Finset.card_bij (fun j _ => slotIdx r j) ?_ ?_ ?_
    · intro j hj
      refine Finset.mem_filter.mpr ⟨Finset.mem_range.mpr ?_, ?_⟩
      · rw [hInv.phys]
        exact slotIdx_lt hM j
      · exact hInv.popu j (Finset.mem_range.mp hj)
    · intro j1 hj1 j2 hj2 he
      exact slotIdx_inj (lt_of_lt_of_le (Finset.mem_range.mp hj1) hInv.sizeLe)
        (lt_of_lt_of_le (Finset.mem_range.mp hj2) hInv.sizeLe) he
    · intro i hi
      obtain ⟨hilt, his⟩ := Finset.mem_filter.mp hi
      by_contra hno
      push_neg at hno
      have hz : r.slots i = none := by
        refine hInv.unpop i (by rw [← hInv.phys]; exact Finset.mem_range.mp hilt) ?_
        intro j hj hc
        exact hno j (Finset.mem_range.mpr hj) hc.symm
      rw [hz] at his
      simp at his
  rw [hcard, Finset.card_range]

/-- Under the invariant, a slot owns a block exactly when it lies in the
wrapping range of `size_` consecutive ring positions starting at `head_`. -/
theorem ringInv_popu_iff {r : RingState} {n : Nat} (hInv : RingInv r n) :
    ∀ i, i < r.physLen →
      ((r.slots i).isSome = true ↔ ∃ j, j < r.size ∧ i = slotIdx r j) := by
  intro i hi
  constructor
  · intro his
    by_contra hno
    push_neg at hno
    have hz : r.slots i = none := by
      refine hInv.unpop i (by rw [← hInv.phys]; exact hi) ?_
      intro j hj
      exact hno j hj
    rw [hz] at his
    simp at his
  · rintro ⟨j, hj, rfl⟩
    exact hInv.popu j hj

/-- C9, amended: for every state reachable from the empty deque by the
public push/pop protocol, the ring's `size_` field equals the number of
ring slots that own a block, and the populated slots are exactly the
contiguous wrapping range of `size_` consecutive ring positions starting
at `head_` and ending at `tail_`. The original claim's quantification over
every public operation is refuted by `claim_C9_counterexample`: `Clear`,
the initializer-list constructor, the sized constructor and move all break
the accounting. -/
theorem claim_C9_amended (d : Deque) (hR : Reach d) :
    d.dataProxy.size = popCount d.dataProxy ∧
    d.dataProxy.tail = slotIdx d.dataProxy (d.dataProxy.size - 1) ∧
    ∀ i, i < d.dataProxy.physLen →
      ((d.dataProxy.slots i).isSome = true ↔
        ∃ j, j < d.dataProxy.size ∧ i = slotIdx d.dataProxy j) := by
  have hI : RingInv d.dataProxy d.size := reach_inv hR
  exact ⟨(ringInv_popCount hI).symm, hI.tail_slotIdx, ringInv_popu_iff hI⟩

/-- C9, witness: the amended theorem applied to the fresh deque, reached
by the empty operation sequence; its ring has `size_ = 1`, exactly one
populated slot (slot 0), and `head_ = tail_ = 0`. -/
theorem claim_C9_witness :
    Reach Deque.dequeInit ∧
    (Deque.dequeInit.dataProxy.size = popCount Deque.dequeInit.dataProxy ∧
     Deque.dequeInit.dataProxy.tail =
       slotIdx Deque.dequeInit.dataProxy (Deque.dequeInit.dataProxy.size - 1) ∧
     ∀ i, i < Deque.dequeInit.dataProxy.physLen →
       ((Deque.dequeInit.dataProxy.slots i).isSome = true ↔
         ∃ j, j < Deque.dequeInit.dataProxy.size ∧
           i = slotIdx Deque.dequeInit.dataProxy j)) :=
  ⟨⟨[], rfl⟩, claim_C9_amended Deque.dequeInit ⟨[], rfl⟩⟩
